import Mathlib

/-!
Verification of sshconf (src/config.js).

Shallow embedding of the core of the sshconf SSH-config manager:
the parser and serializer for the native OpenSSH client-config dialect
and the mutation operations (add, edit, remove, copy, get, list, import)
built on top of them.

Modelling conventions:
* JavaScript strings are embedded as `List Char` (named `Str` below); the
  builtin operations used by the source (trim, split on a newline,
  concatenation, startsWith) are defined explicitly on `Str`.
* A JavaScript host object `{ name: ..., Key1: v1, ... }` is embedded as a
  `HostRecord`: a `name` field plus an association list `opts` kept in
  property order.  Property assignment `obj[k] = v` updates the existing
  entry in place when `k` is present and appends otherwise, matching the
  observable enumeration order of plain (non-integer-like) JavaScript keys.
  (JavaScript additionally enumerates integer-like keys first; no claim
  under verification distinguishes that corner, and the round-trip result
  below is insensitive to it.)
* The persisted config file is `Option Str`: `none` is an absent file,
  `some c` a file with contents `c`.  `fs` path handling, directory
  creation and permissions are the external persistence collaborator and
  are outside the embedded core.
* `JSON.parse` is a platform builtin, not repository code; its outcome is
  embedded abstractly as `Option Json` (`none` models a thrown
  SyntaxError, i.e. text that is not valid JSON).
-/

namespace Sshconf

/-- JavaScript strings, embedded as lists of characters. -/
abbrev Str := List Char

/-- Shorthand for embedding a Lean string literal as a `Str`. -/
def strLit (s : String) : Str := s.toList

/-- The characters matched by JavaScript `\s` (the same set that
`String.prototype.trim` removes): space, TAB LF VT FF CR (U+0009-U+000D),
NBSP U+00A0, U+1680, the U+2000-U+200A spaces, the line separators
U+2028/U+2029, U+202F, U+205F, ideographic space U+3000 and the BOM
U+FEFF. -/
def isWS (c : Char) : Bool :=
  c.toNat = 32 || (9 ≤ c.toNat && c.toNat ≤ 13) || c.toNat = 0xa0 ||
  c.toNat = 0x1680 || (0x2000 ≤ c.toNat && c.toNat ≤ 0x200a) ||
  c.toNat = 0x2028 || c.toNat = 0x2029 || c.toNat = 0x202f ||
  c.toNat = 0x205f || c.toNat = 0x3000 || c.toNat = 0xfeff

/-- The JavaScript line terminators, which `.` in a regex without the
dotAll flag never matches: LF U+000A, CR U+000D, and the separators
U+2028/U+2029.  (All four are also whitespace.) -/
def isLineTerm (c : Char) : Bool :=
  c.toNat = 10 || c.toNat = 13 || c.toNat = 0x2028 || c.toNat = 0x2029

/-- The characters matched by JavaScript `\w`: ASCII letters a-z
(97-122) and A-Z (65-90), digits 0-9 (48-57) and underscore (95). -/
def isWordChar (c : Char) : Bool :=
  (97 ≤ c.toNat && c.toNat ≤ 122) || (65 ≤ c.toNat && c.toNat ≤ 90) ||
  (48 ≤ c.toNat && c.toNat ≤ 57) || c.toNat = 95

/-- Remove trailing whitespace (the right half of JS `trim`). -/
def trimRight (s : Str) : Str := (s.reverse.dropWhile isWS).reverse

/-- JS `String.prototype.trim`: strip leading and trailing whitespace. -/
def jsTrim (s : Str) : Str := trimRight (s.dropWhile isWS)

/-- JS `content.split('\x27\x5cn\x27')`: split on every newline; the empty
string yields one empty line. -/
def splitNl : Str → List Str
  | [] => [[]]
  | c :: cs =>
    if c = '\n' then [] :: splitNl cs
    else
      match splitNl cs with
      | l :: ls => (c :: l) :: ls
      | [] => [[c]]

/-- JS `lines.join` with a newline separator. -/
def joinNl : List Str → Str
  | [] => []
  | [l] => l
  | l :: ls => l ++ '\n' :: joinNl ls

/-- A host entry, embedding the JS object `{ name, Key1: v1, ... }`:
`opts` is the association list of all properties other than `name`, in
property order. -/
structure HostRecord where
  name : Str
  opts : List (Str × Str)
deriving DecidableEq, Repr

/-- JS own-property assignment on the option part of a host object, for a
key the caller has already ruled out as `"name"` or `"__proto__"` (the two
keys that do not create an ordinary own property): overwrite in place when
present, append otherwise. -/
def setOpt : List (Str × Str) → Str → Str → List (Str × Str)
  | [], k, v => [(k, v)]
  | (k2, v2) :: rest, k, v =>
    if k2 = k then (k2, v) :: rest else (k2, v2) :: setOpt rest k v

/-- JS property assignment `current[k] = v` (string value) on a host
object: assigning the key `"name"` overwrites the record's name; assigning
the key `"__proto__"` hits the inherited accessor on `Object.prototype`,
which silently discards a string value — no own property is created and
nothing observable changes; any other key creates or updates an ordinary
own property in `opts`. -/
def setProp (r : HostRecord) (k v : Str) : HostRecord :=
  if k = strLit "name" then { r with name := v }
  else if k = strLit "__proto__" then r
  else { r with opts := setOpt r.opts k v }

/-- Lookup of an option key (first, hence only, occurrence). -/
def lookupOpt (opts : List (Str × Str)) (k : Str) : Option Str :=
  (opts.find? (fun kv => kv.1 = k)).map (fun kv => kv.2)

/-- Match of `/^Host\s+(.+)\x24/i` against an already-trimmed line: the four
leading characters spell `Host` case-insensitively. Returns what follows
the keyword on success. -/
def matchHostPrefix : Str → Option Str
  | a :: b :: c :: d :: rest =>
    if (a = 'H' || a = 'h') && (b = 'O' || b = 'o') &&
       (c = 'S' || c = 's') && (d = 'T' || d = 't') then some rest else none
  | _ => none

/-- Match of `/^Host\s+(.+)\x24/i` (config.js line 35) against a trimmed
line, returning the captured remainder.  `.` matches no line terminator,
so the capture must be free of them; the greedy capture is the text after
the keyword with its leading whitespace stripped (on a trimmed line it is
nonempty), and if it holds a line terminator then every backtracked split
of `\s+` only lengthens the capture and still holds it, so the whole match
fails.  The corner where everything after the keyword is whitespace cannot
arise on a trimmed line (it would end in whitespace). -/
def hostMatch (s : Str) : Option Str :=
  match matchHostPrefix s with
  | none => none
  | some rest =>
    match rest with
    | [] => none
    | c :: _ =>
      if isWS c then
        let nm := rest.dropWhile isWS
        if nm.isEmpty || nm.any isLineTerm then none else some nm
      else none

/-- Match of `/^(\w+)\s+(.+)\x24/` (config.js line 45) against a trimmed
line, returning the captured key and value.  The key `\w+` run is maximal
since word characters are never whitespace; the value obeys the same
line-terminator-free requirement from `.` as in `hostMatch`, with the same
trimmed-line and backtracking remarks. -/
def optMatch (s : Str) : Option (Str × Str) :=
  let k := s.takeWhile isWordChar
  if k.isEmpty then none
  else
    match s.dropWhile isWordChar with
    | [] => none
    | c :: rest =>
      if isWS c then
        let v := (c :: rest).dropWhile isWS
        if v.isEmpty || v.any isLineTerm then none else some (k, v)
      else none

/-- The loop of `parse` (config.js lines 23-54): fold over the lines,
carrying the committed hosts and the currently open record. -/
def parseLines : List Str → List HostRecord → Option HostRecord → List HostRecord
  | [], hosts, cur => hosts ++ cur.toList
  | line :: rest, hosts, cur =>
    let t := jsTrim line
    if t.isEmpty || t.head? = some '#' then parseLines rest hosts cur
    else
      match hostMatch t with
      | some nm => parseLines rest (hosts ++ cur.toList) (some ⟨nm, []⟩)
      | none =>
        match cur with
        | none => parseLines rest hosts none
        | some r =>
          match optMatch t with
          | some (k, v) => parseLines rest hosts (some (setProp r k v))
          | none => parseLines rest hosts cur

/-- `parse(content)` (config.js lines 18-57). -/
def parse (content : Str) : List HostRecord :=
  if (jsTrim content).isEmpty then []
  else parseLines (splitNl content) [] none

/-- One indented option line emitted by `stringify` (config.js line 67). -/
def optLine (kv : Str × Str) : Str :=
  strLit "    " ++ kv.1 ++ strLit " " ++ kv.2

/-- The lines emitted for one host by `stringify` (config.js lines 62-72):
the `Host` line, one indented line per property other than `name` in
property order, then a blank separator line. -/
def blockLines (h : HostRecord) : List Str :=
  (strLit "Host " ++ h.name) ::
    ((h.opts.filter (fun kv => kv.1 ≠ strLit "name")).map optLine ++ [[]])

/-- `stringify(hosts)` (config.js lines 59-75): all block lines joined with
newlines.  (`opts` as produced by `parse` never contains the key `name`,
but `stringify` itself skips it, hence the filter.) -/
def stringify (hosts : List HostRecord) : Str :=
  joinNl (hosts.flatMap blockLines)

/-! ## Persistence boundary and mutation operations -/

/-- `read(configPath)` (config.js lines 77-86) with the file system
abstracted: an absent file is the empty collection, a present file is
parsed.  The `configPath` argument only selects which file the external
collaborator touches and is dropped from the embedding. -/
def read (file : Option Str) : List HostRecord :=
  match file with
  | none => []
  | some content => parse content

/-- `write(hosts, configPath)` (config.js lines 88-94) with the file
system abstracted: the file now exists and holds the serialized text. -/
def write (hosts : List HostRecord) : Option Str := some (stringify hosts)

/-- The caller-supplied `options` object of `addHost`/`editHost`: each
recognized property is absent (`none`, JS `undefined`) or a string
(possibly empty). -/
structure HostOptions where
  host : Option Str := none
  HostName : Option Str := none
  user : Option Str := none
  User : Option Str := none
  port : Option Str := none
  Port : Option Str := none
  identity : Option Str := none
  IdentityFile : Option Str := none
deriving DecidableEq, Repr

/-- JS truthiness of an optional string: `undefined` and the empty string
are falsy, every other string truthy. -/
def truthy : Option Str → Bool
  | none => false
  | some s => !s.isEmpty

/-- JS `a || b` on optional strings: `a` when truthy, else `b`. -/
def jsOr (a b : Option Str) : Option Str := if truthy a then a else b

/-- The string carried by a truthy optional value. -/
def getStr (a : Option Str) : Str := a.getD []

/-- The four conditional field assignments shared verbatim by `addHost`
(config.js lines 106-117) and `editHost` (config.js lines 133-144): a
recognized field is written only when `options.x || options.X` is truthy.
`String(...)` on the port is the identity here because the embedded
options are already strings. -/
def applyOptions (h : HostRecord) (o : HostOptions) : HostRecord :=
  let h := if truthy (jsOr o.host o.HostName) then
    setProp h (strLit "HostName") (getStr (jsOr o.host o.HostName)) else h
  let h := if truthy (jsOr o.user o.User) then
    setProp h (strLit "User") (getStr (jsOr o.user o.User)) else h
  let h := if truthy (jsOr o.port o.Port) then
    setProp h (strLit "Port") (getStr (jsOr o.port o.Port)) else h
  let h := if truthy (jsOr o.identity o.IdentityFile) then
    setProp h (strLit "IdentityFile") (getStr (jsOr o.identity o.IdentityFile)) else h
  h

/-- Outcome of `addHost`, `editHost` and `copyHost`:
`{ success: true, host }` or `{ success: false, message }`. -/
inductive HostOutcome where
  | success (host : HostRecord)
  | failure (message : Str)
deriving DecidableEq, Repr

/-- Outcome of `removeHost`: `{ success: true }` or
`{ success: false, message }`. -/
inductive SimpleOutcome where
  | success
  | failure (message : Str)
deriving DecidableEq, Repr

/-- `addHost(name, options, configPath)` (config.js lines 96-123), as a
function from the persisted file to the returned outcome and the resulting
persisted file (unchanged on failure, since the source only calls `write`
on the success path). -/
def addHost (name : Str) (options : HostOptions) (file : Option Str) :
    HostOutcome × Option Str :=
  let hosts := read file
  match hosts.find? (fun h => h.name = name) with
  | some _ => (.failure (strLit "Host already exists: " ++ name), file)
  | none =>
    let host := applyOptions { name := name, opts := [] } options
    (.success host, write (hosts ++ [host]))

/-- In-place mutation of the first list element with the given name, as
performed by `editHost` through the object reference returned by
`hosts.find`. -/
def replaceFirst : List HostRecord → Str → HostRecord → List HostRecord
  | [], _, _ => []
  | h :: rest, name, h2 =>
    if h.name = name then h2 :: rest else h :: replaceFirst rest name h2

/-- `editHost(name, options, configPath)` (config.js lines 125-149): the
first record with the given name is updated in place through the found
reference. -/
def editHost (name : Str) (options : HostOptions) (file : Option Str) :
    HostOutcome × Option Str :=
  let hosts := read file
  match hosts.find? (fun h => h.name = name) with
  | none => (.failure (strLit "Host not found: " ++ name), file)
  | some h =>
    let h2 := applyOptions h options
    (.success h2, write (replaceFirst hosts name h2))

/-- `removeHost(name, configPath)` (config.js lines 151-163):
`findIndex` then `splice(index, 1)`. -/
def removeHost (name : Str) (file : Option Str) :
    SimpleOutcome × Option Str :=
  let hosts := read file
  match hosts.findIdx? (fun h => h.name = name) with
  | none => (.failure (strLit "Host not found: " ++ name), file)
  | some i => (.success, write (hosts.eraseIdx i))

/-- `getHost(name, configPath)` (config.js lines 165-168). -/
def getHost (name : Str) (file : Option Str) : Option HostRecord :=
  (read file).find? (fun h => h.name = name)

/-- `listHosts(configPath)` (config.js lines 170-173). -/
def listHosts (file : Option Str) : List Str :=
  (read file).map (fun h => h.name)

/-- `copyHost(from, to, configPath)` (config.js lines 175-193).  The JS
spread `{ ...source, name: to }` copies every property of `source` in
property order and then overwrites `name`, which already sits in the
`name` slot; `fromName`/`toName` stand for the source parameters
`from`/`to` (the former is a Lean keyword). -/
def copyHost (fromName toName : Str) (file : Option Str) :
    HostOutcome × Option Str :=
  let hosts := read file
  match hosts.find? (fun h => h.name = fromName) with
  | none => (.failure (strLit "Host not found: " ++ fromName), file)
  | some source =>
    match hosts.find? (fun h => h.name = toName) with
    | some _ => (.failure (strLit "Host already exists: " ++ toName), file)
    | none =>
      let newHost : HostRecord := { source with name := toName }
      (.success newHost, write (hosts ++ [newHost]))

/-! ## JSON model for importConfig -/

/-- JSON values, as produced by `JSON.parse`. -/
inductive Json where
  | null
  | jbool (b : Bool)
  | jnum (n : Int)
  | jstr (s : Str)
  | jarr (elems : List Json)
  | jobj (fields : List (Str × Json))
deriving Repr

/-- Decimal digits of a natural number. -/
def natToStr (n : Nat) : Str := (Nat.toDigits 10 n)

/-- Decimal rendering of an integer, as JS `String(n)` for an integral
number. -/
def intToStr : Int → Str
  | Int.ofNat n => natToStr n
  | Int.negSucc n => '-' :: natToStr (n + 1)

mutual

/-- JS string coercion `String(v)` of a JSON value, as used by the `+`
concatenations in `stringify` when `importConfig` hands it raw JSON
entries: arrays join their elements with commas (null joining as the empty
string), objects render as `[object Object]`. -/
def jsToStr : Json → Str
  | .null => strLit "null"
  | .jbool true => strLit "true"
  | .jbool false => strLit "false"
  | .jnum n => intToStr n
  | .jstr s => s
  | .jarr elems => jsArrToStr elems
  | .jobj _ => strLit "[object Object]"

/-- `Array.prototype.join(',')` after coercing each element. -/
def jsArrToStr : List Json → Str
  | [] => []
  | [x] => jsElemToStr x
  | x :: y :: rest => jsElemToStr x ++ ',' :: jsArrToStr (y :: rest)

/-- One array element under `join`: null becomes the empty string, every
other value its `String` coercion (the coercion cases are spelled out
again so that the mutual recursion stays structural). -/
def jsElemToStr : Json → Str
  | .null => []
  | .jbool true => strLit "true"
  | .jbool false => strLit "false"
  | .jnum n => intToStr n
  | .jstr s => s
  | .jarr elems => jsArrToStr elems
  | .jobj _ => strLit "[object Object]"

end

/-- JS `v.name` coerced by `'Host ' + v.name`, for the entry values on
which the property access returns: the `name` property of an object (JSON
objects from `JSON.parse` have unique keys), `undefined` for any other
non-null value.  Reading `.name` of `null` instead throws a TypeError;
`stringifyJsonE` takes that path before this function is consulted, so the
catch-all here is never reached with `null`. -/
def jsonName (v : Json) : Str :=
  match v with
  | .jobj fields =>
    match fields.find? (fun f => f.1 = strLit "name") with
    | some f => jsToStr f.2
    | none => strLit "undefined"
  | _ => strLit "undefined"

/-- JS `Object.entries(v)` for a JSON value: the fields of an object, the
indexed characters of a string, empty for primitives and (index, element)
pairs for arrays. -/
def jsonEntries (v : Json) : List (Str × Json) :=
  match v with
  | .jobj fields => fields
  | .jstr s => (List.range s.length).zip (s.map (fun c => Json.jstr [c])) |>.map
      (fun p => (natToStr p.1, p.2))
  | .jarr elems => (List.range elems.length).zip elems |>.map
      (fun p => (natToStr p.1, p.2))
  | _ => []

/-- `stringify` (config.js lines 59-75) specialized to the raw JSON
entries that `importConfig` passes to `write`: same loop, with property
access and string coercion spelled out on `Json`. -/
def stringifyJson (hosts : List Json) : Str :=
  joinNl (hosts.flatMap (fun host =>
    (strLit "Host " ++ jsonName host) ::
      (((jsonEntries host).filter (fun kv => kv.1 ≠ strLit "name")).map
        (fun kv => strLit "    " ++ kv.1 ++ strLit " " ++ jsToStr kv.2) ++ [[]])))

/-- Outcome of `importConfig`: `{ success: true, count }` or
`{ success: false, message }`. -/
inductive ImportOutcome where
  | success (count : Nat)
  | failure (message : Str)
deriving DecidableEq, Repr

/-- An uncaught JavaScript exception escaping an operation (the only one
the embedded core can raise is the TypeError from reading a property of
`null`). -/
inductive JsError where
  | typeError
deriving DecidableEq, Repr

/-- Whether evaluating `'Host ' + host.name` on this entry throws: property
access on `null` raises a TypeError.  (JSON.parse never produces
`undefined`, and every other value — number, string, boolean, array,
object — boxes and yields a property.) -/
def jsNull : Json → Bool
  | .null => true
  | _ => false

/-- `stringify` applied to raw JSON entries, with its error behavior: the
loop evaluates `'Host ' + host.name` for each entry, so the first `null`
entry throws a TypeError before the full text exists; otherwise the text
of `stringifyJson` is produced.  (`stringify` builds the whole string
before `write` touches the file, so a thrown loop iteration means nothing
is written.) -/
def stringifyJsonE (hosts : List Json) : Except JsError Str :=
  if hosts.any jsNull then .error .typeError
  else .ok (stringifyJson hosts)

/-- `importConfig(data, configPath)` (config.js lines 231-246).  The
`decoded` argument is the outcome of the builtin `JSON.parse(data)`:
`none` models the thrown SyntaxError for text that is not valid JSON.
Only `Array.isArray` is checked before the decoded value is handed to
`write`; the try/catch covers only `JSON.parse`, so a TypeError thrown
while serializing (a `null` entry) escapes uncaught with the file
untouched. -/
def importConfig (decoded : Option Json) (file : Option Str) :
    Except JsError (ImportOutcome × Option Str) :=
  match decoded with
  | none => .ok (.failure (strLit "Invalid JSON"), file)
  | some j =>
    match j with
    | .jarr hosts =>
      match stringifyJsonE hosts with
      | .error e => .error e
      | .ok text => .ok (.success hosts.length, some text)
    | _ => .ok (.failure (strLit "Expected array of hosts"), file)

/-! ## Well-formedness

The records produced by `parse` satisfy the following shape invariants,
which are exactly what makes a serialized record survive a re-parse. -/

/-- A string that prints on one line and re-trims to itself: nonempty, free
of line terminators, not starting or ending in whitespace.  Both host
names and option values captured by the parser have this shape (the
line-terminator freedom comes from the `.` in the capture groups). -/
def wfStr (s : Str) : Prop :=
  s ≠ [] ∧ (∀ c ∈ s, isLineTerm c = false) ∧
  (∀ c, s.head? = some c → isWS c = false) ∧
  (∀ c, s.getLast? = some c → isWS c = false)

instance (s : Str) : Decidable (wfStr s) := by unfold wfStr; infer_instance

/-- Whether a four-character key spells the `Host` keyword
case-insensitively (such a line is claimed by the `Host` pattern before
the option pattern can see it). -/
def isHostKey : Str → Bool
  | [a, b, c, d] =>
    (a = 'H' || a = 'h') && (b = 'O' || b = 'o') &&
    (c = 'S' || c = 's') && (d = 'T' || d = 't')
  | _ => false

/-- An option key as stored by the parser: nonempty, word characters only,
not the `Host` keyword, and neither of the two keys whose assignment does
not create an ordinary own property (`name` overwrites the identity slot,
`__proto__` is swallowed by the inherited accessor). -/
def wfKey (k : Str) : Prop :=
  k ≠ [] ∧ (∀ c ∈ k, isWordChar c = true) ∧ isHostKey k = false ∧
    k ≠ strLit "name" ∧ k ≠ strLit "__proto__"

instance (k : Str) : Decidable (wfKey k) := by unfold wfKey; infer_instance

/-- Well-formed host record: well-formed name, well-formed option entries
with pairwise distinct keys. -/
def WFRecord (r : HostRecord) : Prop :=
  wfStr r.name ∧ (∀ kv ∈ r.opts, wfKey kv.1 ∧ wfStr kv.2) ∧
    (r.opts.map Prod.fst).Nodup

instance (r : HostRecord) : Decidable (WFRecord r) := by
  unfold WFRecord; infer_instance

/-- Well-formedness of the caller-supplied options of `addHost`/`editHost`:
every value that will actually be assigned is a well-formed option
value. -/
def wfOptions (o : HostOptions) : Prop :=
  (truthy (jsOr o.host o.HostName) = true → wfStr (getStr (jsOr o.host o.HostName))) ∧
  (truthy (jsOr o.user o.User) = true → wfStr (getStr (jsOr o.user o.User))) ∧
  (truthy (jsOr o.port o.Port) = true → wfStr (getStr (jsOr o.port o.Port))) ∧
  (truthy (jsOr o.identity o.IdentityFile) = true → wfStr (getStr (jsOr o.identity o.IdentityFile)))

instance (o : HostOptions) : Decidable (wfOptions o) := by
  unfold wfOptions; infer_instance

/-- The four recognized option keys written by `addHost`/`editHost`. -/
def recognizedKeys : List Str :=
  [strLit "HostName", strLit "User", strLit "Port", strLit "IdentityFile"]

/-! ## Helper lemmas: characters and trimming -/

theorem not_ws_word {c : Char} (hw : isWS c = true) (hk : isWordChar c = true) :
    False := by
  simp only [isWS, isWordChar, Bool.or_eq_true, Bool.and_eq_true,
    decide_eq_true_eq] at hw hk
  omega

theorem ws_not_word {c : Char} (h : isWS c = true) : isWordChar c = false := by
  cases hk : isWordChar c
  · rfl
  · exact (not_ws_word h hk).elim

theorem word_not_ws {c : Char} (h : isWordChar c = true) : isWS c = false := by
  cases hw : isWS c
  · rfl
  · exact (not_ws_word hw h).elim

theorem lineTerm_ws {c : Char} (h : isLineTerm c = true) : isWS c = true := by
  simp only [isLineTerm, isWS, Bool.or_eq_true, Bool.and_eq_true,
    decide_eq_true_eq] at h ⊢
  omega

theorem dropWhile_head_false {α : Type} {p : α → Bool} :
    ∀ {l : List α} {c : α} {t : List α}, l.dropWhile p = c :: t → p c = false := by
  intro l
  induction l with
  | nil => intro c t h; cases h
  | cons a as ih =>
    intro c t h
    rw [List.dropWhile_cons] at h
    by_cases hp : p a = true
    · rw [if_pos hp] at h; exact ih h
    · rw [if_neg hp] at h
      cases h
      exact Bool.eq_false_iff.mpr hp

theorem dropWhile_all {α : Type} {p : α → Bool} {l : List α}
    (h : ∀ c ∈ l, p c = true) : l.dropWhile p = [] := by
  rw [List.dropWhile_eq_nil_iff]; exact h

theorem dropWhile_all_append {α : Type} {p : α → Bool} {a b : List α}
    (h : ∀ c ∈ a, p c = true) : (a ++ b).dropWhile p = b.dropWhile p := by
  induction a with
  | nil => rfl
  | cons x xs ih =>
    rw [List.cons_append, List.dropWhile_cons,
      if_pos (h x (List.mem_cons_self x xs))]
    exact ih (fun c hc => h c (List.mem_cons_of_mem x hc))

theorem dropWhile_cons_false {α : Type} {p : α → Bool} {c : α} {t : List α}
    (h : p c = false) : (c :: t).dropWhile p = c :: t := by
  rw [List.dropWhile_cons, if_neg (by simp [h])]

theorem takeWhile_all_cons_append {α : Type} {p : α → Bool} {k : List α} {c : α}
    {r : List α} (hk : ∀ x ∈ k, p x = true) (hc : p c = false) :
    (k ++ c :: r).takeWhile p = k ∧ (k ++ c :: r).dropWhile p = c :: r := by
  induction k with
  | nil => simp [List.takeWhile_cons, dropWhile_cons_false hc, hc]
  | cons x xs ih =>
    have hx : p x = true := hk x (List.mem_cons_self x xs)
    have ihr := ih (fun y hy => hk y (List.mem_cons_of_mem x hy))
    constructor
    · rw [List.cons_append, List.takeWhile_cons, if_pos hx, ihr.1]
    · rw [List.cons_append, List.dropWhile_cons, if_pos hx, ihr.2]

theorem mem_trimRight {s : Str} {c : Char} (h : c ∈ trimRight s) : c ∈ s := by
  unfold trimRight at h
  rw [List.mem_reverse] at h
  have := (List.dropWhile_suffix isWS).mem h
  rwa [List.mem_reverse] at this

theorem mem_jsTrim {s : Str} {c : Char} (h : c ∈ jsTrim s) : c ∈ s := by
  unfold jsTrim at h
  exact (List.dropWhile_suffix isWS).mem (mem_trimRight h)

theorem trimRight_front (s : Str) : trimRight s <+: s := by
  unfold trimRight
  rw [← List.reverse_reverse s, List.reverse_prefix, List.reverse_reverse]
  exact List.dropWhile_suffix isWS

theorem jsTrim_head {s : Str} {c : Char} {t : Str} (h : jsTrim s = c :: t) :
    isWS c = false := by
  unfold jsTrim at h
  obtain ⟨r, hr⟩ := trimRight_front (s.dropWhile isWS)
  rw [h, List.cons_append] at hr
  exact dropWhile_head_false hr.symm

theorem jsTrim_last {s : Str} {c : Char} (h : (jsTrim s).getLast? = some c) :
    isWS c = false := by
  unfold jsTrim trimRight at h
  rw [List.getLast?_reverse] at h
  cases hd : (s.dropWhile isWS).reverse.dropWhile isWS with
  | nil => rw [hd] at h; cases h
  | cons x xs =>
    rw [hd] at h
    cases h
    exact dropWhile_head_false hd

theorem jsTrim_eq_self {l : Str}
    (h1 : ∀ c, l.head? = some c → isWS c = false)
    (h2 : ∀ c, l.getLast? = some c → isWS c = false) : jsTrim l = l := by
  unfold jsTrim trimRight
  cases l with
  | nil => rfl
  | cons a t =>
    rw [dropWhile_cons_false (h1 a rfl)]
    cases hr : (a :: t).reverse with
    | nil => exact absurd (List.reverse_eq_nil_iff.mp hr) (List.cons_ne_nil a t)
    | cons b u =>
      have hb : (a :: t).getLast? = some b := by
        rw [← List.head?_reverse, hr]; rfl
      rw [dropWhile_cons_false (h2 b hb), ← hr, List.reverse_reverse]

theorem jsTrim_eq_nil {l : Str} (h : jsTrim l = []) : ∀ c ∈ l, isWS c = true := by
  unfold jsTrim trimRight at h
  rw [List.reverse_eq_nil_iff, List.dropWhile_eq_nil_iff] at h
  intro c hc
  rcases List.mem_append.mp
      (by rw [List.takeWhile_append_dropWhile isWS l]; exact hc) with hm | hm
  · exact List.mem_takeWhile_imp hm
  · exact h c (List.mem_reverse.mpr hm)

theorem jsTrim_ne_nil {l : Str} {c : Char} (hc : c ∈ l) (hw : isWS c = false) :
    jsTrim l ≠ [] := by
  intro h
  rw [jsTrim_eq_nil h c hc] at hw
  cases hw

/-! ## Helper lemmas: line splitting and joining -/

theorem splitNl_ne_nil (s : Str) : splitNl s ≠ [] := by
  induction s with
  | nil => simp [splitNl]
  | cons c cs ih =>
    unfold splitNl
    by_cases h : c = '\n'
    · simp [h]
    · rw [if_neg h]
      cases hs : splitNl cs with
      | nil => simp
      | cons l ls => simp

theorem splitNl_no_newline {s : Str} : ∀ l ∈ splitNl s, '\n' ∉ l := by
  induction s with
  | nil => intro l hl; simp [splitNl] at hl; simp [hl]
  | cons c cs ih =>
    intro l hl
    unfold splitNl at hl
    by_cases h : c = '\n'
    · rw [if_pos h] at hl
      rcases List.mem_cons.mp hl with h2 | h2
      · simp [h2]
      · exact ih l h2
    · rw [if_neg h] at hl
      cases hs : splitNl cs with
      | nil => exact absurd hs (splitNl_ne_nil cs)
      | cons x xs =>
        rw [hs] at hl
        rcases List.mem_cons.mp hl with h2 | h2
        · subst h2
          intro hmem
          rcases List.mem_cons.mp hmem with h3 | h3
          · exact h h3.symm
          · exact ih x (by rw [hs]; exact List.mem_cons_self x xs) h3
        · exact ih l (by rw [hs]; exact List.mem_cons_of_mem x h2)

theorem splitNl_cons_cons {c : Char} {cs l : Str} {ls : List Str}
    (hc : c ≠ '\n') (h : splitNl cs = l :: ls) :
    splitNl (c :: cs) = (c :: l) :: ls := by
  unfold splitNl
  rw [if_neg hc, h]

theorem splitNl_eq_self {l : Str} (h : '\n' ∉ l) : splitNl l = [l] := by
  induction l with
  | nil => rfl
  | cons c cs ih =>
    have hc : c ≠ '\n' := fun hc => h (by rw [hc]; exact List.mem_cons_self _ _)
    exact splitNl_cons_cons hc (ih (fun hm => h (List.mem_cons_of_mem c hm)))

theorem splitNl_append_newline {l s : Str} (h : '\n' ∉ l) :
    splitNl (l ++ '\n' :: s) = l :: splitNl s := by
  induction l with
  | nil => rfl
  | cons c cs ih =>
    have hc : c ≠ '\n' := fun hc => h (by rw [hc]; exact List.mem_cons_self _ _)
    exact splitNl_cons_cons hc (ih (fun hm => h (List.mem_cons_of_mem c hm)))

theorem splitNl_joinNl : ∀ {ls : List Str}, ls ≠ [] →
    (∀ l ∈ ls, '\n' ∉ l) → splitNl (joinNl ls) = ls := by
  intro ls
  induction ls with
  | nil => intro h; exact absurd rfl h
  | cons l rest ih =>
    intro _ hnl
    cases rest with
    | nil => exact splitNl_eq_self (hnl l (List.mem_cons_self _ _))
    | cons l2 rest2 =>
      show splitNl (l ++ '\n' :: joinNl (l2 :: rest2)) = _
      rw [splitNl_append_newline (hnl l (List.mem_cons_self _ _))]
      rw [ih (List.cons_ne_nil l2 rest2)
        (fun x hx => hnl x (List.mem_cons_of_mem l hx))]

/-! ## Helper lemmas: the two line patterns -/

theorem getLast?_append_right {α : Type} {a b : List α} (hb : b ≠ []) :
    (a ++ b).getLast? = b.getLast? := by
  rw [List.getLast?_append]
  cases hbl : b.getLast? with
  | none => exact absurd (List.getLast?_eq_none_iff.mp hbl) hb
  | some x => rfl

theorem matchHostPrefix_some {s rest : Str} (h : matchHostPrefix s = some rest) :
    ∃ a b c d, s = a :: b :: c :: d :: rest ∧ isHostKey [a, b, c, d] = true := by
  match s with
  | [] => cases h
  | [_] => cases h
  | [_, _] => cases h
  | [_, _, _] => cases h
  | a :: b :: c :: d :: r =>
    have h2 : (if (a = 'H' || a = 'h') && (b = 'O' || b = 'o') &&
        (c = 'S' || c = 's') && (d = 'T' || d = 't') then
          some r else none) = some rest := h
    by_cases hc : ((a = 'H' || a = 'h') && (b = 'O' || b = 'o') &&
        (c = 'S' || c = 's') && (d = 'T' || d = 't')) = true
    · rw [if_pos hc] at h2
      injection h2 with h2
      exact ⟨a, b, c, d, by rw [h2], hc⟩
    · rw [if_neg hc] at h2; cases h2

theorem hostMatch_some_struct {t nm : Str} (h : hostMatch t = some nm) :
    (∃ pre, t = pre ++ nm) ∧ nm ≠ [] ∧
      (∀ c, nm.head? = some c → isWS c = false) ∧
      (∀ c ∈ nm, isLineTerm c = false) := by
  unfold hostMatch at h
  cases hm : matchHostPrefix t with
  | none => rw [hm] at h; cases h
  | some rest =>
    rw [hm] at h
    cases rest with
    | nil => cases h
    | cons c r =>
      have h2 : (if isWS c then
          (if ((c :: r).dropWhile isWS).isEmpty ||
              ((c :: r).dropWhile isWS).any isLineTerm then none
            else some ((c :: r).dropWhile isWS)) else none) = some nm := h
      by_cases hc : isWS c = true
      · rw [if_pos hc] at h2
        by_cases he : (((c :: r).dropWhile isWS).isEmpty ||
            ((c :: r).dropWhile isWS).any isLineTerm) = true
        · rw [if_pos he] at h2; cases h2
        · rw [if_neg he] at h2
          injection h2 with h
          rw [Bool.or_eq_true, not_or] at he
          obtain ⟨he1, he2⟩ := he
          obtain ⟨a, b, c', d, hs, _⟩ := matchHostPrefix_some hm
          subst h
          refine ⟨⟨[a, b, c', d] ++ (c :: r).takeWhile isWS, ?_⟩, ?_, ?_, ?_⟩
          · rw [List.append_assoc, List.takeWhile_append_dropWhile]
            exact hs
          · intro hnil
            rw [hnil] at he1
            exact he1 rfl
          · intro x hx
            cases hdw : (c :: r).dropWhile isWS with
            | nil => rw [hdw] at hx; cases hx
            | cons y ys =>
              rw [hdw] at hx
              injection hx with hx
              subst hx
              exact dropWhile_head_false hdw
          · intro x hx
            cases hlt : isLineTerm x
            · rfl
            · exact absurd (List.any_eq_true.mpr ⟨x, hx, hlt⟩) he2
      · rw [if_neg hc] at h2; cases h2

theorem optMatch_some_struct {t k v : Str} (h : optMatch t = some (k, v)) :
    k = t.takeWhile isWordChar ∧ k ≠ [] ∧ (∀ c ∈ k, isWordChar c = true) ∧
      v = (t.dropWhile isWordChar).dropWhile isWS ∧ v ≠ [] ∧
      (∀ c, v.head? = some c → isWS c = false) ∧
      (∃ c rest, t.dropWhile isWordChar = c :: rest ∧ isWS c = true) ∧
      (∃ pre, t = pre ++ v) ∧ (∀ c ∈ v, isLineTerm c = false) := by
  unfold optMatch at h
  by_cases hke : (t.takeWhile isWordChar).isEmpty = true
  · simp only [hke, if_true] at h; cases h
  · simp only [hke, if_false, Bool.false_eq_true] at h
    cases hdw : t.dropWhile isWordChar with
    | nil => rw [hdw] at h; cases h
    | cons c rest =>
      rw [hdw] at h
      have h2 : (if isWS c then
          (if ((c :: rest).dropWhile isWS).isEmpty ||
              ((c :: rest).dropWhile isWS).any isLineTerm then none
            else some (t.takeWhile isWordChar, (c :: rest).dropWhile isWS))
          else none) = some (k, v) := h
      by_cases hc : isWS c = true
      · rw [if_pos hc] at h2
        by_cases hve : (((c :: rest).dropWhile isWS).isEmpty ||
            ((c :: rest).dropWhile isWS).any isLineTerm) = true
        · rw [if_pos hve] at h2; cases h2
        · rw [if_neg hve] at h2
          injection h2 with h3
          cases h3
          rw [Bool.or_eq_true, not_or] at hve
          obtain ⟨hve1, hve2⟩ := hve
          refine ⟨rfl, ?_, ?_, rfl, ?_, ?_, ⟨c, rest, rfl, hc⟩, ?_, ?_⟩
          · intro hnil
            rw [hnil] at hke
            exact hke rfl
          · intro x hx
            exact List.mem_takeWhile_imp hx
          · intro hnil
            rw [hnil] at hve1
            exact hve1 rfl
          · intro x hx
            cases hvs : (c :: rest).dropWhile isWS with
            | nil => rw [hvs] at hx; cases hx
            | cons y ys =>
              rw [hvs] at hx
              injection hx with hx
              subst hx
              exact dropWhile_head_false hvs
          · refine ⟨t.takeWhile isWordChar ++ (c :: rest).takeWhile isWS, ?_⟩
            rw [List.append_assoc, List.takeWhile_append_dropWhile, ← hdw,
              List.takeWhile_append_dropWhile]
          · intro x hx
            cases hlt : isLineTerm x
            · rfl
            · exact absurd (List.any_eq_true.mpr ⟨x, hx, hlt⟩) hve2
      · rw [if_neg hc] at h2; cases h2

theorem hostMatch_of_optMatch_hostkey {t k v : Str} (h : optMatch t = some (k, v))
    (hk : isHostKey k = true) : ∃ nm, hostMatch t = some nm := by
  obtain ⟨hkeq, hkne, _, hveq, hvne, _, ⟨c, rest, hdw, hws⟩, _, hvlt⟩ :=
    optMatch_some_struct h
  have ht : t = k ++ (c :: rest) := by
    rw [hkeq, ← hdw, List.takeWhile_append_dropWhile]
  match k, hk with
  | [a, b, c2, d], hk =>
    have hk2 : ((a = 'H' || a = 'h') && (b = 'O' || b = 'o') &&
        (c2 = 'S' || c2 = 's') && (d = 'T' || d = 't')) = true := hk
    have hm : matchHostPrefix t = some (c :: rest) := by
      rw [ht]
      show (if (a = 'H' || a = 'h') && (b = 'O' || b = 'o') &&
          (c2 = 'S' || c2 = 's') && (d = 'T' || d = 't') then
            some (c :: rest) else none) = some (c :: rest)
      rw [if_pos hk2]
    have hveq2 : (c :: rest).dropWhile isWS = v := by rw [← hdw, ← hveq]
    have hne : ¬((((c :: rest).dropWhile isWS).isEmpty ||
        ((c :: rest).dropWhile isWS).any isLineTerm) = true) := by
      rw [Bool.or_eq_true, not_or, hveq2]
      constructor
      · intro hemp
        cases hv : v with
        | nil => exact hvne hv
        | cons _ _ => rw [hv] at hemp; cases hemp
      · intro hany
        obtain ⟨x, hx, hlt⟩ := List.any_eq_true.mp hany
        rw [hvlt x hx] at hlt
        cases hlt
    refine ⟨(c :: rest).dropWhile isWS, ?_⟩
    unfold hostMatch
    rw [hm]
    show (if isWS c then
        (if ((c :: rest).dropWhile isWS).isEmpty ||
            ((c :: rest).dropWhile isWS).any isLineTerm then none
          else some ((c :: rest).dropWhile isWS)) else none)
      = some ((c :: rest).dropWhile isWS)
    rw [if_pos hws, if_neg hne]

theorem isEmpty_true_iff {α : Type} {l : List α} : l.isEmpty = true ↔ l = [] := by
  cases l <;> simp

theorem hostMatch_hostline {nm : Str} (hne : nm ≠ [])
    (hh : ∀ c, nm.head? = some c → isWS c = false)
    (hlt : ∀ c ∈ nm, isLineTerm c = false) :
    hostMatch (strLit "Host " ++ nm) = some nm := by
  have hd : List.dropWhile isWS nm = nm := by
    cases nm with
    | nil => rfl
    | cons a t => exact dropWhile_cons_false (hh a rfl)
  show (if (List.dropWhile isWS nm).isEmpty || (List.dropWhile isWS nm).any isLineTerm
      then none else some (List.dropWhile isWS nm)) = some nm
  rw [hd]
  have hcond : (nm.isEmpty || nm.any isLineTerm) = false := by
    rw [Bool.or_eq_false_iff]
    constructor
    · cases hn : nm with
      | nil => exact absurd hn hne
      | cons _ _ => rfl
    · rw [List.any_eq_false]
      intro x hx
      simp [hlt x hx]
  rw [hcond, if_neg (by decide : ¬(false = true))]

theorem optMatch_optline {k v : Str} (hk1 : k ≠ [])
    (hk2 : ∀ c ∈ k, isWordChar c = true) (hv1 : v ≠ [])
    (hv2 : ∀ c, v.head? = some c → isWS c = false)
    (hv3 : ∀ c ∈ v, isLineTerm c = false) :
    optMatch (k ++ ' ' :: v) = some (k, v) := by
  have ht := takeWhile_all_cons_append (p := isWordChar) (c := ' ') (r := v)
    hk2 (by decide)
  have hd : List.dropWhile isWS (' ' :: v) = v := by
    rw [List.dropWhile_cons, if_pos (by decide)]
    cases v with
    | nil => rfl
    | cons a t => exact dropWhile_cons_false (hv2 a rfl)
  have hcond : (v.isEmpty || v.any isLineTerm) = false := by
    rw [Bool.or_eq_false_iff]
    refine ⟨?_, ?_⟩
    · cases hn : v with
      | nil => exact absurd hn hv1
      | cons _ _ => rfl
    · rw [List.any_eq_false]
      intro x hx
      simp [hv3 x hx]
  unfold optMatch
  simp only [ht.1, ht.2, hd, hcond]
  rw [if_neg (fun hemp => hk1 (isEmpty_true_iff.mp hemp)),
    if_pos (by decide : isWS ' ' = true),
    if_neg (by decide : ¬(false = true))]

theorem hostMatch_some_head_ws {t nm : Str} (h : hostMatch t = some nm) :
    ∃ a b c d c0 r0, t = a :: b :: c :: d :: c0 :: r0 ∧
      isHostKey [a, b, c, d] = true ∧ isWS c0 = true := by
  unfold hostMatch at h
  cases hm : matchHostPrefix t with
  | none => rw [hm] at h; cases h
  | some rest =>
    rw [hm] at h
    cases rest with
    | nil => cases h
    | cons c r =>
      have h2 : (if isWS c then
          (if ((c :: r).dropWhile isWS).isEmpty ||
              ((c :: r).dropWhile isWS).any isLineTerm then none
            else some ((c :: r).dropWhile isWS)) else none) = some nm := h
      by_cases hc : isWS c = true
      · obtain ⟨a, b, c', d, hs, hhk⟩ := matchHostPrefix_some hm
        exact ⟨a, b, c', d, c, r, hs, hhk, hc⟩
      · rw [if_neg hc] at h2; cases h2

theorem hostMatch_optline_none {k v : Str} (hk : wfKey k) :
    hostMatch (k ++ ' ' :: v) = none := by
  obtain ⟨hkne, hkw, hkh, _⟩ := hk
  cases hh : hostMatch (k ++ ' ' :: v) with
  | none => rfl
  | some nm =>
    exfalso
    obtain ⟨a, b, c, d, c0, r0, ht, hhk, hws⟩ := hostMatch_some_head_ws hh
    rcases k with _ | ⟨x, _ | ⟨y, _ | ⟨z, _ | ⟨w, _ | ⟨u, k2⟩⟩⟩⟩⟩
    · exact hkne rfl
    · injection ht with e1 ht
      injection ht with e2 ht
      subst e2
      simp [isHostKey] at hhk
    · injection ht with e1 ht
      injection ht with e2 ht
      injection ht with e3 ht
      subst e3
      simp [isHostKey] at hhk
    · injection ht with e1 ht
      injection ht with e2 ht
      injection ht with e3 ht
      injection ht with e4 ht
      subst e4
      simp [isHostKey] at hhk
    · injection ht with e1 ht
      injection ht with e2 ht
      injection ht with e3 ht
      injection ht with e4 ht
      subst e1; subst e2; subst e3; subst e4
      rw [hkh] at hhk
      exact Bool.false_ne_true hhk
    · injection ht with e1 ht
      injection ht with e2 ht
      injection ht with e3 ht
      injection ht with e4 ht
      injection ht with e5 ht
      subst e5
      have hu : isWordChar u = true := hkw u (by simp)
      rw [word_not_ws hu] at hws
      exact Bool.false_ne_true hws

/-! ## Helper lemmas: property assignment -/

theorem setOpt_not_mem {opts : List (Str × Str)} {k : Str} (v : Str)
    (h : k ∉ opts.map Prod.fst) : setOpt opts k v = opts ++ [(k, v)] := by
  induction opts with
  | nil => rfl
  | cons kv rest ih =>
    have hne : kv.1 ≠ k := by
      intro he
      exact h (by rw [← he]; exact List.mem_map_of_mem Prod.fst (List.mem_cons_self kv rest))
    show setOpt (kv :: rest) k v = _
    cases kv with
    | mk k2 v2 =>
      unfold setOpt
      rw [if_neg hne, ih (fun hm => h (List.mem_cons_of_mem _ hm))]
      rfl

theorem setOpt_mem_keys {opts : List (Str × Str)} {k : Str} (v : Str)
    (h : k ∈ opts.map Prod.fst) :
    (setOpt opts k v).map Prod.fst = opts.map Prod.fst := by
  induction opts with
  | nil => cases h
  | cons kv rest ih =>
    cases kv with
    | mk k2 v2 =>
      unfold setOpt
      by_cases he : k2 = k
      · rw [if_pos he]; rfl
      · rw [if_neg he]
        have hm : k ∈ rest.map Prod.fst := by
          rcases List.mem_cons.mp h with h1 | h1
          · exact absurd h1.symm he
          · exact h1
        show k2 :: (setOpt rest k v).map Prod.fst = k2 :: rest.map Prod.fst
        rw [ih hm]

theorem setOpt_keys (opts : List (Str × Str)) (k : Str) (v : Str) :
    (setOpt opts k v).map Prod.fst =
      if k ∈ opts.map Prod.fst then opts.map Prod.fst
      else opts.map Prod.fst ++ [k] := by
  by_cases h : k ∈ opts.map Prod.fst
  · rw [if_pos h, setOpt_mem_keys v h]
  · rw [if_neg h, setOpt_not_mem v h, List.map_append]
    rfl

theorem setOpt_entry_cases {opts : List (Str × Str)} {k v : Str} :
    ∀ kv ∈ setOpt opts k v, kv ∈ opts ∨ kv = (k, v) := by
  induction opts with
  | nil =>
    intro kv hkv
    rcases List.mem_cons.mp hkv with h | h
    · exact Or.inr h
    · cases h
  | cons kv2 rest ih =>
    intro kv hkv
    cases kv2 with
    | mk k2 v2 =>
      unfold setOpt at hkv
      by_cases he : k2 = k
      · rw [if_pos he] at hkv
        rcases List.mem_cons.mp hkv with h | h
        · subst he
          exact Or.inr (by rw [h])
        · exact Or.inl (List.mem_cons_of_mem _ h)
      · rw [if_neg he] at hkv
        rcases List.mem_cons.mp hkv with h | h
        · exact Or.inl (by rw [h]; exact List.mem_cons_self _ _)
        · rcases ih kv h with h2 | h2
          · exact Or.inl (List.mem_cons_of_mem _ h2)
          · exact Or.inr h2

theorem setOpt_nodup {opts : List (Str × Str)} {k : Str} (v : Str)
    (h : (opts.map Prod.fst).Nodup) :
    ((setOpt opts k v).map Prod.fst).Nodup := by
  rw [setOpt_keys]
  by_cases hm : k ∈ opts.map Prod.fst
  · rw [if_pos hm]; exact h
  · rw [if_neg hm]
    rw [List.nodup_append]
    exact ⟨h, List.nodup_singleton k, by
      intro x hx hx2
      rw [List.mem_singleton.mp hx2] at hx
      exact hm hx⟩

theorem setOpt_lookup_self (opts : List (Str × Str)) (k v : Str) :
    lookupOpt (setOpt opts k v) k = some v := by
  induction opts with
  | nil =>
    unfold setOpt lookupOpt
    rw [List.find?_cons_of_pos _ (by simp)]
    rfl
  | cons kv rest ih =>
    cases kv with
    | mk k2 v2 =>
      unfold setOpt
      by_cases he : k2 = k
      · rw [if_pos he]
        unfold lookupOpt
        rw [List.find?_cons_of_pos _ (by simp [he])]
        rfl
      · rw [if_neg he]
        unfold lookupOpt at ih ⊢
        rw [List.find?_cons_of_neg _ (by simp [he])]
        exact ih

theorem setOpt_lookup_other (opts : List (Str × Str)) {k k2 : Str} (v : Str)
    (h : k2 ≠ k) : lookupOpt (setOpt opts k v) k2 = lookupOpt opts k2 := by
  induction opts with
  | nil =>
    unfold setOpt lookupOpt
    rw [List.find?_cons_of_neg _ (by simp [Ne.symm h])]
  | cons kv rest ih =>
    cases kv with
    | mk k3 v3 =>
      unfold setOpt
      by_cases he : k3 = k
      · rw [if_pos he]
        unfold lookupOpt
        have he2 : ¬(k3 = k2) := fun e => h (e.symm.trans he)
        rw [List.find?_cons_of_neg _ (by simp [he2]),
          List.find?_cons_of_neg _ (by simp [he2])]
      · rw [if_neg he]
        unfold lookupOpt at ih ⊢
        by_cases he2 : k3 = k2
        · rw [List.find?_cons_of_pos _ (by simp [he2]),
            List.find?_cons_of_pos _ (by simp [he2])]
        · rw [List.find?_cons_of_neg _ (by simp [he2]),
            List.find?_cons_of_neg _ (by simp [he2])]
          exact ih

/-! ## Helper lemmas: the parse loop -/

theorem parseLines_cons (line : Str) (rest : List Str) (hosts : List HostRecord)
    (cur : Option HostRecord) :
    parseLines (line :: rest) hosts cur =
      (if (jsTrim line).isEmpty || (jsTrim line).head? = some '#' then
        parseLines rest hosts cur
      else
        match hostMatch (jsTrim line) with
        | some nm => parseLines rest (hosts ++ cur.toList) (some ⟨nm, []⟩)
        | none =>
          match cur with
          | none => parseLines rest hosts none
          | some r =>
            match optMatch (jsTrim line) with
            | some (k, v) => parseLines rest hosts (some (setProp r k v))
            | none => parseLines rest hosts cur) := rfl

theorem parseLines_skip {line : Str} (rest : List Str) (hosts : List HostRecord)
    (cur : Option HostRecord)
    (h : ((jsTrim line).isEmpty || (jsTrim line).head? = some '#') = true) :
    parseLines (line :: rest) hosts cur = parseLines rest hosts cur := by
  rw [parseLines_cons, if_pos h]

theorem parseLines_hostline {line nm : Str} (rest : List Str)
    (hosts : List HostRecord) (cur : Option HostRecord)
    (hc : ((jsTrim line).isEmpty || (jsTrim line).head? = some '#') = false)
    (hm : hostMatch (jsTrim line) = some nm) :
    parseLines (line :: rest) hosts cur =
      parseLines rest (hosts ++ cur.toList) (some ⟨nm, []⟩) := by
  rw [parseLines_cons, if_neg (by simp [hc]), hm]

theorem parseLines_nohost_none {line : Str} (rest : List Str)
    (hosts : List HostRecord)
    (hc : ((jsTrim line).isEmpty || (jsTrim line).head? = some '#') = false)
    (hm : hostMatch (jsTrim line) = none) :
    parseLines (line :: rest) hosts none = parseLines rest hosts none := by
  rw [parseLines_cons, if_neg (by simp [hc]), hm]

theorem parseLines_optline_step {line k v : Str} (rest : List Str)
    (hosts : List HostRecord) (r : HostRecord)
    (hc : ((jsTrim line).isEmpty || (jsTrim line).head? = some '#') = false)
    (hm : hostMatch (jsTrim line) = none)
    (ho : optMatch (jsTrim line) = some (k, v)) :
    parseLines (line :: rest) hosts (some r) =
      parseLines rest hosts (some (setProp r k v)) := by
  rw [parseLines_cons, if_neg (by simp [hc]), hm, ho]

theorem parseLines_ignored {line : Str} (rest : List Str)
    (hosts : List HostRecord) (r : HostRecord)
    (hc : ((jsTrim line).isEmpty || (jsTrim line).head? = some '#') = false)
    (hm : hostMatch (jsTrim line) = none)
    (ho : optMatch (jsTrim line) = none) :
    parseLines (line :: rest) hosts (some r) = parseLines rest hosts (some r) := by
  rw [parseLines_cons, if_neg (by simp [hc]), hm, ho]

theorem wfStr_of_capture {line t s : Str} (ht : t = jsTrim line)
    (hpre : ∃ pre, t = pre ++ s) (hne : s ≠ [])
    (hh : ∀ c, s.head? = some c → isWS c = false)
    (hlt : ∀ c ∈ s, isLineTerm c = false) : wfStr s := by
  refine ⟨hne, hlt, hh, ?_⟩
  intro c hlast
  obtain ⟨pre, hp⟩ := hpre
  have h2 : t.getLast? = some c := by
    rw [hp, getLast?_append_right hne]
    exact hlast
  rw [ht] at h2
  exact jsTrim_last h2

theorem parseLines_wf : ∀ {lines : List Str}, (∀ l ∈ lines, '\n' ∉ l) →
    ∀ {acc : List HostRecord} {cur : Option HostRecord},
      (∀ r ∈ acc, WFRecord r) → (∀ r, cur = some r → WFRecord r) →
      ∀ r ∈ parseLines lines acc cur, WFRecord r := by
  intro lines
  induction lines with
  | nil =>
    intro _ acc cur hacc hcur r hr
    rcases List.mem_append.mp hr with h | h
    · exact hacc r h
    · cases cur with
      | none => cases h
      | some c =>
        rcases List.mem_singleton.mp h with rfl
        exact hcur r rfl
  | cons line rest ih =>
    intro hnl acc cur hacc hcur r hr
    have hnl' : ∀ l ∈ rest, '\n' ∉ l :=
      fun l hl => hnl l (List.mem_cons_of_mem line hl)
    have hnlline : '\n' ∉ line := hnl line (List.mem_cons_self line rest)
    cases hB : ((jsTrim line).isEmpty || (jsTrim line).head? = some '#') with
    | true =>
      rw [parseLines_skip rest acc cur hB] at hr
      exact ih hnl' hacc hcur r hr
    | false =>
      cases hm : hostMatch (jsTrim line) with
      | some nm =>
        rw [parseLines_hostline rest acc cur hB hm] at hr
        obtain ⟨hpre, hne, hh, hlt⟩ := hostMatch_some_struct hm
        refine ih hnl' ?_ ?_ r hr
        · intro r2 hr2
          rcases List.mem_append.mp hr2 with h | h
          · exact hacc r2 h
          · cases cur with
            | none => cases h
            | some c =>
              rcases List.mem_singleton.mp h with rfl
              exact hcur r2 rfl
        · intro r2 hr2
          injection hr2 with hr2
          subst hr2
          exact ⟨wfStr_of_capture rfl hpre hne hh hlt,
            fun kv hkv => absurd hkv (List.not_mem_nil kv), List.nodup_nil⟩
      | none =>
        cases cur with
        | none =>
          rw [parseLines_nohost_none rest acc hB hm] at hr
          exact ih hnl' hacc (fun r2 hr2 => by cases hr2) r hr
        | some r0 =>
          have hr0 : WFRecord r0 := hcur r0 rfl
          cases ho : optMatch (jsTrim line) with
          | some kv =>
            cases kv with
            | mk k v =>
              rw [parseLines_optline_step rest acc r0 hB hm ho] at hr
              obtain ⟨hkeq, hkne, hkw, hveq, hvne, hvh, hwssep, hpre, hvlt⟩ :=
                optMatch_some_struct ho
              have hvwf : wfStr v := wfStr_of_capture rfl hpre hvne hvh hvlt
              refine ih hnl' hacc ?_ r hr
              intro r2 hr2
              injection hr2 with hr2
              subst hr2
              unfold setProp
              by_cases hname : k = strLit "name"
              · rw [if_pos hname]
                exact ⟨hvwf, hr0.2.1, hr0.2.2⟩
              · rw [if_neg hname]
                by_cases hproto : k = strLit "__proto__"
                · rw [if_pos hproto]
                  exact hr0
                · rw [if_neg hproto]
                  have hkwf : wfKey k := by
                    refine ⟨hkne, hkw, ?_, hname, hproto⟩
                    cases hhk : isHostKey k with
                    | false => rfl
                    | true =>
                      obtain ⟨nm, hsome⟩ := hostMatch_of_optMatch_hostkey ho hhk
                      rw [hsome] at hm
                      cases hm
                  refine ⟨hr0.1, ?_, setOpt_nodup v hr0.2.2⟩
                  intro kv2 hkv2
                  rcases setOpt_entry_cases kv2 hkv2 with h2 | h2
                  · exact hr0.2.1 kv2 h2
                  · rw [h2]
                    exact ⟨hkwf, hvwf⟩
          | none =>
            rw [parseLines_ignored rest acc r0 hB hm ho] at hr
            exact ih hnl' hacc hcur r hr

theorem parse_wf (content : Str) : ∀ r ∈ parse content, WFRecord r := by
  unfold parse
  by_cases h : (jsTrim content).isEmpty = true
  · rw [if_pos h]
    intro r hr
    cases hr
  · rw [if_neg h]
    exact parseLines_wf (fun l hl => splitNl_no_newline l hl)
      (fun r hr => absurd hr (List.not_mem_nil r)) (fun r hr => by cases hr)

/-! ## Helper lemmas: round trip -/

theorem jsTrim_wsDrop {a b : Str} (h : ∀ c ∈ a, isWS c = true) :
    jsTrim (a ++ b) = jsTrim b := by
  unfold jsTrim
  rw [dropWhile_all_append h]

theorem filter_name_eq_self {opts : List (Str × Str)}
    (h : ∀ kv ∈ opts, wfKey kv.1) :
    opts.filter (fun kv => kv.1 ≠ strLit "name") = opts := by
  rw [List.filter_eq_self]
  intro kv hkv
  simp only [decide_eq_true_eq]
  exact (h kv hkv).2.2.2.1

theorem blockLines_no_newline {r : HostRecord} (h : WFRecord r) :
    ∀ l ∈ blockLines r, '\n' ∉ l := by
  intro l hl
  unfold blockLines at hl
  rcases List.mem_cons.mp hl with rfl | hl
  · intro hmem
    rcases List.mem_append.mp hmem with hm | hm
    · revert hm; decide
    · exact absurd (h.1.2.1 '\n' hm) (by decide)
  · rcases List.mem_append.mp hl with hm | hm
    · obtain ⟨kv, hkv, rfl⟩ := List.mem_map.mp hm
      have hkv2 : kv ∈ r.opts := List.mem_of_mem_filter hkv
      obtain ⟨hkwf, hvwf⟩ := h.2.1 kv hkv2
      intro hmem
      unfold optLine at hmem
      rcases List.mem_append.mp hmem with hm2 | hm2
      · rcases List.mem_append.mp hm2 with hm3 | hm3
        · rcases List.mem_append.mp hm3 with hm4 | hm4
          · revert hm4; decide
          · have := hkwf.2.1 '\n' hm4
            revert this; decide
        · revert hm3; decide
      · exact absurd (hvwf.2.1 '\n' hm2) (by decide)
    · rcases List.mem_singleton.mp hm with rfl
      exact List.not_mem_nil '\n'

theorem optLine_shape (kv : Str × Str) :
    optLine kv = strLit "    " ++ (kv.1 ++ ' ' :: kv.2) := by
  unfold optLine
  rw [List.append_assoc]
  rfl

theorem jsTrim_optLine {k v : Str} (hk : wfKey k) (hv : wfStr v) :
    jsTrim (optLine (k, v)) = k ++ ' ' :: v := by
  rw [optLine_shape]
  rw [jsTrim_wsDrop (by decide)]
  apply jsTrim_eq_self
  · intro c hc
    cases k with
    | nil => exact absurd rfl hk.1
    | cons a t =>
      injection hc with hc
      subst hc
      exact word_not_ws (hk.2.1 a (List.mem_cons_self a t))
  · intro c hc
    rw [getLast?_append_right (List.cons_ne_nil ' ' v)] at hc
    have hc2 : v.getLast? = some c := by
      rw [show (' ' :: v) = [' '] ++ v from rfl,
        getLast?_append_right hv.1] at hc
      exact hc
    exact hv.2.2.2 c hc2

theorem parseLines_opts : ∀ (todo : List (Str × Str)) {done : List (Str × Str)}
    (nm : Str) (rest : List Str) (acc : List HostRecord),
    (∀ kv ∈ todo, wfKey kv.1 ∧ wfStr kv.2) →
    (∀ kv ∈ todo, kv.1 ∉ done.map Prod.fst) →
    (todo.map Prod.fst).Nodup →
    parseLines (todo.map optLine ++ rest) acc (some ⟨nm, done⟩) =
      parseLines rest acc (some ⟨nm, done ++ todo⟩) := by
  intro todo
  induction todo with
  | nil =>
    intro done nm rest acc _ _ _
    rw [List.append_nil]
    rfl
  | cons kv todo2 ih =>
    intro done nm rest acc hwf hnd hnodup
    cases kv with
    | mk k v =>
      obtain ⟨hkwf, hvwf⟩ := hwf (k, v) (List.mem_cons_self _ _)
      have ht : jsTrim (optLine (k, v)) = k ++ ' ' :: v := jsTrim_optLine hkwf hvwf
      have hkc : ∃ kc kt, k = kc :: kt := by
        cases k with
        | nil => exact absurd rfl hkwf.1
        | cons kc kt => exact ⟨kc, kt, rfl⟩
      obtain ⟨kc, kt, hkeq⟩ := hkc
      have hcond : ((jsTrim (optLine (k, v))).isEmpty ||
          (jsTrim (optLine (k, v))).head? = some '#') = false := by
        rw [ht, hkeq]
        apply Bool.or_eq_false_iff.mpr
        constructor
        · rfl
        · apply decide_eq_false
          intro hh
          injection hh with hh
          have := hkwf.2.1 kc (by rw [hkeq]; exact List.mem_cons_self kc kt)
          rw [hh] at this
          cases this
      have hhm : hostMatch (jsTrim (optLine (k, v))) = none := by
        rw [ht]
        exact hostMatch_optline_none hkwf
      have hom : optMatch (jsTrim (optLine (k, v))) = some (k, v) := by
        rw [ht]
        exact optMatch_optline hkwf.1 hkwf.2.1 hvwf.1 hvwf.2.2.1 hvwf.2.1
      show parseLines (optLine (k, v) :: (todo2.map optLine ++ rest)) acc
        (some ⟨nm, done⟩) = _
      rw [parseLines_optline_step _ _ _ hcond hhm hom]
      have hsp : setProp ⟨nm, done⟩ k v = ⟨nm, done ++ [(k, v)]⟩ := by
        unfold setProp
        rw [if_neg hkwf.2.2.2.1, if_neg hkwf.2.2.2.2]
        show HostRecord.mk nm (setOpt done k v) = _
        rw [setOpt_not_mem v (hnd (k, v) (List.mem_cons_self _ _))]
      rw [hsp]
      have hnodup2 := hnodup
      rw [List.map_cons] at hnodup2
      have hknotin : k ∉ todo2.map Prod.fst := (List.nodup_cons.mp hnodup2).1
      have hnodup3 : (todo2.map Prod.fst).Nodup := (List.nodup_cons.mp hnodup2).2
      rw [ih nm rest acc
        (fun kv2 h2 => hwf kv2 (List.mem_cons_of_mem _ h2))
        (fun kv2 h2 => by
          rw [List.map_append]
          intro hmem
          rcases List.mem_append.mp hmem with hm | hm
          · exact hnd kv2 (List.mem_cons_of_mem _ h2) hm
          · have he : kv2.1 = k := List.mem_singleton.mp hm
            have hk2 : kv2.1 ∈ todo2.map Prod.fst :=
              List.mem_map_of_mem Prod.fst h2
            rw [he] at hk2
            exact hknotin hk2)
        hnodup3]
      rw [List.append_assoc]
      rfl

theorem parseLines_block {r : HostRecord} (hr : WFRecord r) (rest : List Str)
    (acc : List HostRecord) (cur : Option HostRecord) :
    parseLines (blockLines r ++ rest) acc cur =
      parseLines rest (acc ++ cur.toList) (some r) := by
  obtain ⟨⟨hnne, hnnl, hnh, hnlast⟩, hopts, hnd⟩ := hr
  have hhl : jsTrim (strLit "Host " ++ r.name) = strLit "Host " ++ r.name := by
    apply jsTrim_eq_self
    · intro c hc
      injection hc with hc
      subst hc
      decide
    · intro c hc
      rw [getLast?_append_right hnne] at hc
      exact hnlast c hc
  have hcond : ((jsTrim (strLit "Host " ++ r.name)).isEmpty ||
      (jsTrim (strLit "Host " ++ r.name)).head? = some '#') = false := by
    rw [hhl]
    apply Bool.or_eq_false_iff.mpr
    refine ⟨rfl, ?_⟩
    apply decide_eq_false
    intro hh
    have h2 : some 'H' = some '#' := hh
    injection h2 with h2
    exact absurd h2 (by decide)
  have hhm : hostMatch (jsTrim (strLit "Host " ++ r.name)) = some r.name := by
    rw [hhl]
    exact hostMatch_hostline hnne hnh hnnl
  show parseLines ((strLit "Host " ++ r.name) ::
    ((r.opts.filter (fun kv => kv.1 ≠ strLit "name")).map optLine ++ [[]] ++ rest))
    acc cur = _
  rw [parseLines_hostline _ _ _ hcond hhm]
  rw [filter_name_eq_self (fun kv hkv => (hopts kv hkv).1)]
  rw [List.append_assoc]
  rw [@parseLines_opts r.opts [] r.name ([[]] ++ rest) (acc ++ cur.toList)
    hopts (fun kv _ => by rw [List.map_nil]; exact List.not_mem_nil kv.1) hnd]
  rw [List.cons_append]
  simp only [List.nil_append]
  rw [parseLines_skip rest (acc ++ cur.toList) _ (by rfl)]

theorem parseLines_flatMap : ∀ {hosts : List HostRecord},
    (∀ r ∈ hosts, WFRecord r) → ∀ (acc : List HostRecord) (cur : Option HostRecord),
    parseLines (hosts.flatMap blockLines) acc cur = acc ++ cur.toList ++ hosts := by
  intro hosts
  induction hosts with
  | nil =>
    intro _ acc cur
    show acc ++ cur.toList = acc ++ cur.toList ++ []
    rw [List.append_nil]
  | cons r hs ih =>
    intro h acc cur
    rw [List.flatMap_cons,
      parseLines_block (h r (List.mem_cons_self r hs)) _ acc cur,
      ih (fun r2 h2 => h r2 (List.mem_cons_of_mem r h2)) (acc ++ cur.toList) (some r)]
    simp [List.append_assoc]

theorem joinNl_cons_head (l : Str) (ls : List Str) :
    ∃ s, joinNl (l :: ls) = l ++ s := by
  cases ls with
  | nil => exact ⟨[], (List.append_nil l).symm⟩
  | cons l2 ls2 => exact ⟨'\n' :: joinNl (l2 :: ls2), rfl⟩

/-- Round trip on well-formed collections: serializing and re-parsing is
the identity. -/
theorem parse_stringify {hosts : List HostRecord}
    (h : ∀ r ∈ hosts, WFRecord r) : parse (stringify hosts) = hosts := by
  cases hosts with
  | nil => rfl
  | cons r hs =>
    have hfm : (r :: hs).flatMap blockLines =
        blockLines r ++ hs.flatMap blockLines := List.flatMap_cons r hs blockLines
    have hnonl : ∀ l ∈ (r :: hs).flatMap blockLines, '\n' ∉ l := by
      intro l hl
      obtain ⟨r2, hr2, hl2⟩ := List.mem_flatMap.mp hl
      exact blockLines_no_newline (h r2 hr2) l hl2
    have hne : (r :: hs).flatMap blockLines ≠ [] := by
      rw [hfm]
      unfold blockLines
      rw [List.cons_append]
      exact List.cons_ne_nil _ _
    have hsplit : splitNl (stringify (r :: hs)) = (r :: hs).flatMap blockLines :=
      splitNl_joinNl hne hnonl
    have hH : 'H' ∈ stringify (r :: hs) := by
      unfold stringify
      rw [hfm]
      unfold blockLines
      rw [List.cons_append]
      obtain ⟨s, hs2⟩ := joinNl_cons_head (strLit "Host " ++ r.name) _
      rw [hs2]
      exact List.mem_append_left _ (List.mem_append_left _ (by decide))
    have hguard : (jsTrim (stringify (r :: hs))).isEmpty = false := by
      cases hg : (jsTrim (stringify (r :: hs))).isEmpty with
      | false => rfl
      | true =>
        exact absurd (isEmpty_true_iff.mp hg)
          (jsTrim_ne_nil hH (by decide))
    unfold parse
    rw [if_neg (by rw [hguard]; exact Bool.false_ne_true)]
    rw [hsplit, parseLines_flatMap h [] none]
    rfl

/-! ## Helper lemmas: operations on the collection -/

theorem read_write {hosts : List HostRecord} (h : ∀ r ∈ hosts, WFRecord r) :
    read (write hosts) = hosts := parse_stringify h

theorem find?_name_decomp {name : Str} {l1 l2 : List HostRecord} {h : HostRecord}
    (hl1 : ∀ g ∈ l1, g.name ≠ name) (hh : h.name = name) :
    (l1 ++ h :: l2).find? (fun x => x.name = name) = some h := by
  rw [List.find?_append]
  have hnone : l1.find? (fun x => x.name = name) = none :=
    List.find?_eq_none.mpr (fun x hx => by simp [hl1 x hx])
  rw [hnone, Option.none_or]
  exact List.find?_cons_of_pos _ (by simp [hh])

theorem replaceFirst_decomp {name : Str} {l1 l2 : List HostRecord}
    {h h2 : HostRecord} (hl1 : ∀ g ∈ l1, g.name ≠ name) (hh : h.name = name) :
    replaceFirst (l1 ++ h :: l2) name h2 = l1 ++ h2 :: l2 := by
  induction l1 with
  | nil =>
    show replaceFirst (h :: l2) name h2 = h2 :: l2
    unfold replaceFirst
    rw [if_pos hh]
  | cons g l1t ih =>
    show replaceFirst (g :: (l1t ++ h :: l2)) name h2 = g :: (l1t ++ h2 :: l2)
    unfold replaceFirst
    rw [if_neg (hl1 g (List.mem_cons_self g l1t)),
      ih (fun x hx => hl1 x (List.mem_cons_of_mem g hx))]

theorem findIdx?_name_decomp {name : Str} {l2 : List HostRecord} {h : HostRecord}
    (hh : h.name = name) : ∀ (l1 : List HostRecord) (i : Nat),
    (∀ g ∈ l1, g.name ≠ name) →
    List.findIdx? (fun x => x.name = name) (l1 ++ h :: l2) i = some (i + l1.length) := by
  intro l1
  induction l1 with
  | nil =>
    intro i _
    rw [List.nil_append, List.findIdx?_cons, if_pos (by simp [hh])]
    rfl
  | cons g l1t ih =>
    intro i hl1
    rw [List.cons_append, List.findIdx?_cons,
      if_neg (by simp [hl1 g (List.mem_cons_self g l1t)]),
      ih (i + 1) (fun x hx => hl1 x (List.mem_cons_of_mem g hx))]
    congr 1
    simp [List.length_cons]
    omega

theorem eraseIdx_at_decomp (l1 l2 : List HostRecord) (h : HostRecord) :
    (l1 ++ h :: l2).eraseIdx l1.length = l1 ++ l2 := by
  rw [List.eraseIdx_append_of_length_le (Nat.le_refl l1.length), Nat.sub_self]
  rw [List.eraseIdx_cons_zero]

/-! ## Helper lemmas: applyOptions -/

theorem setProp_name {r : HostRecord} {k v : Str} (hk : k ≠ strLit "name") :
    (setProp r k v).name = r.name := by
  unfold setProp
  rw [if_neg hk]
  by_cases hp : k = strLit "__proto__"
  · rw [if_pos hp]
  · rw [if_neg hp]

theorem setProp_opts {r : HostRecord} {k v : Str} (hk : k ≠ strLit "name")
    (hp : k ≠ strLit "__proto__") :
    (setProp r k v).opts = setOpt r.opts k v := by
  unfold setProp
  rw [if_neg hk, if_neg hp]

theorem setProp_wf {r : HostRecord} {k v : Str} (hk : wfKey k) (hv : wfStr v)
    (hr : WFRecord r) : WFRecord (setProp r k v) := by
  unfold setProp
  rw [if_neg hk.2.2.2.1, if_neg hk.2.2.2.2]
  refine ⟨hr.1, ?_, setOpt_nodup v hr.2.2⟩
  intro kv hkv
  rcases setOpt_entry_cases kv hkv with h2 | h2
  · exact hr.2.1 kv h2
  · rw [h2]
    exact ⟨hk, hv⟩

theorem condSetProp_name (r : HostRecord) (b : Prop) [Decidable b] (k v : Str)
    (hk : k ≠ strLit "name") :
    (if b then setProp r k v else r).name = r.name := by
  by_cases hb : b
  · rw [if_pos hb]; exact setProp_name hk
  · rw [if_neg hb]

theorem condSetProp_lookup_other (r : HostRecord) (b : Prop) [Decidable b]
    {k : Str} (v : Str) {k2 : Str} (hk : k ≠ strLit "name")
    (hp : k ≠ strLit "__proto__") (hne : k2 ≠ k) :
    lookupOpt (if b then setProp r k v else r).opts k2 = lookupOpt r.opts k2 := by
  by_cases hb : b
  · rw [if_pos hb, setProp_opts hk hp]
    exact setOpt_lookup_other r.opts v hne
  · rw [if_neg hb]

theorem condSetProp_keys (r : HostRecord) (b : Prop) [Decidable b] (k v : Str)
    (hk : k ≠ strLit "name") (hp : k ≠ strLit "__proto__") :
    ∃ added, (if b then setProp r k v else r).opts.map Prod.fst =
      r.opts.map Prod.fst ++ added := by
  by_cases hb : b
  · rw [if_pos hb, setProp_opts hk hp, setOpt_keys]
    by_cases hm : k ∈ r.opts.map Prod.fst
    · exact ⟨[], by rw [if_pos hm, List.append_nil]⟩
    · exact ⟨[k], by rw [if_neg hm]⟩
  · rw [if_neg hb]
    exact ⟨[], (List.append_nil _).symm⟩

theorem condSetProp_wf (r : HostRecord) (b : Prop) [Decidable b] {k v : Str}
    (hk : wfKey k) (hv : b → wfStr v) (hr : WFRecord r) :
    WFRecord (if b then setProp r k v else r) := by
  by_cases hb : b
  · rw [if_pos hb]; exact setProp_wf hk (hv hb) hr
  · rw [if_neg hb]; exact hr

theorem keys_prefix_trans {r1 r2 r3 : HostRecord}
    (h12 : ∃ a, r2.opts.map Prod.fst = r1.opts.map Prod.fst ++ a)
    (h23 : ∃ a, r3.opts.map Prod.fst = r2.opts.map Prod.fst ++ a) :
    ∃ a, r3.opts.map Prod.fst = r1.opts.map Prod.fst ++ a := by
  obtain ⟨a, ha⟩ := h12
  obtain ⟨b, hb⟩ := h23
  exact ⟨a ++ b, by rw [hb, ha, List.append_assoc]⟩

theorem applyOptions_name (h : HostRecord) (o : HostOptions) :
    (applyOptions h o).name = h.name := by
  simp only [applyOptions]
  rw [condSetProp_name _ _ _ _ (by decide), condSetProp_name _ _ _ _ (by decide),
    condSetProp_name _ _ _ _ (by decide), condSetProp_name _ _ _ _ (by decide)]

theorem applyOptions_keys (h : HostRecord) (o : HostOptions) :
    ∃ added, (applyOptions h o).opts.map Prod.fst =
      h.opts.map Prod.fst ++ added := by
  simp only [applyOptions]
  exact keys_prefix_trans
    (keys_prefix_trans
      (keys_prefix_trans
        (condSetProp_keys _ _ _ _ (by decide) (by decide))
        (condSetProp_keys _ _ _ _ (by decide) (by decide)))
      (condSetProp_keys _ _ _ _ (by decide) (by decide)))
    (condSetProp_keys _ _ _ _ (by decide) (by decide))

theorem applyOptions_wf {h : HostRecord} {o : HostOptions} (hr : WFRecord h)
    (ho : wfOptions o) : WFRecord (applyOptions h o) := by
  simp only [applyOptions]
  refine condSetProp_wf _ _ (by decide) (fun hb => ho.2.2.2 hb) ?_
  refine condSetProp_wf _ _ (by decide) (fun hb => ho.2.2.1 hb) ?_
  refine condSetProp_wf _ _ (by decide) (fun hb => ho.2.1 hb) ?_
  exact condSetProp_wf _ _ (by decide) (fun hb => ho.1 hb) hr

theorem applyOptions_lookup_other (h : HostRecord) (o : HostOptions) {k : Str}
    (hk : k ∉ recognizedKeys) :
    lookupOpt (applyOptions h o).opts k = lookupOpt h.opts k := by
  have h1 : k ≠ strLit "HostName" := fun e => hk (by rw [e]; decide)
  have h2 : k ≠ strLit "User" := fun e => hk (by rw [e]; decide)
  have h3 : k ≠ strLit "Port" := fun e => hk (by rw [e]; decide)
  have h4 : k ≠ strLit "IdentityFile" := fun e => hk (by rw [e]; decide)
  simp only [applyOptions]
  rw [condSetProp_lookup_other _ _ _ (by decide) (by decide) h4,
    condSetProp_lookup_other _ _ _ (by decide) (by decide) h3,
    condSetProp_lookup_other _ _ _ (by decide) (by decide) h2,
    condSetProp_lookup_other _ _ _ (by decide) (by decide) h1]

theorem applyOptions_HostName (h : HostRecord) (o : HostOptions) :
    (truthy (jsOr o.host o.HostName) = false →
      lookupOpt (applyOptions h o).opts (strLit "HostName") =
        lookupOpt h.opts (strLit "HostName")) ∧
    (truthy (jsOr o.host o.HostName) = true →
      lookupOpt (applyOptions h o).opts (strLit "HostName") =
        some (getStr (jsOr o.host o.HostName))) := by
  simp only [applyOptions]
  constructor
  · intro hc
    rw [condSetProp_lookup_other _ _ _ (by decide) (by decide) (by decide),
      condSetProp_lookup_other _ _ _ (by decide) (by decide) (by decide),
      condSetProp_lookup_other _ _ _ (by decide) (by decide) (by decide),
      if_neg (by rw [hc]; exact Bool.false_ne_true)]
  · intro hc
    rw [condSetProp_lookup_other _ _ _ (by decide) (by decide) (by decide),
      condSetProp_lookup_other _ _ _ (by decide) (by decide) (by decide),
      condSetProp_lookup_other _ _ _ (by decide) (by decide) (by decide),
      if_pos hc, setProp_opts (by decide) (by decide)]
    exact setOpt_lookup_self _ _ _

theorem applyOptions_User (h : HostRecord) (o : HostOptions) :
    (truthy (jsOr o.user o.User) = false →
      lookupOpt (applyOptions h o).opts (strLit "User") =
        lookupOpt h.opts (strLit "User")) ∧
    (truthy (jsOr o.user o.User) = true →
      lookupOpt (applyOptions h o).opts (strLit "User") =
        some (getStr (jsOr o.user o.User))) := by
  simp only [applyOptions]
  constructor
  · intro hc
    rw [condSetProp_lookup_other _ _ _ (by decide) (by decide) (by decide),
      condSetProp_lookup_other _ _ _ (by decide) (by decide) (by decide),
      if_neg (by rw [hc]; exact Bool.false_ne_true),
      condSetProp_lookup_other _ _ _ (by decide) (by decide) (by decide)]
  · intro hc
    rw [condSetProp_lookup_other _ _ _ (by decide) (by decide) (by decide),
      condSetProp_lookup_other _ _ _ (by decide) (by decide) (by decide),
      if_pos hc, setProp_opts (by decide) (by decide)]
    exact setOpt_lookup_self _ _ _

theorem applyOptions_Port (h : HostRecord) (o : HostOptions) :
    (truthy (jsOr o.port o.Port) = false →
      lookupOpt (applyOptions h o).opts (strLit "Port") =
        lookupOpt h.opts (strLit "Port")) ∧
    (truthy (jsOr o.port o.Port) = true →
      lookupOpt (applyOptions h o).opts (strLit "Port") =
        some (getStr (jsOr o.port o.Port))) := by
  simp only [applyOptions]
  constructor
  · intro hc
    rw [condSetProp_lookup_other _ _ _ (by decide) (by decide) (by decide),
      if_neg (by rw [hc]; exact Bool.false_ne_true),
      condSetProp_lookup_other _ _ _ (by decide) (by decide) (by decide),
      condSetProp_lookup_other _ _ _ (by decide) (by decide) (by decide)]
  · intro hc
    rw [condSetProp_lookup_other _ _ _ (by decide) (by decide) (by decide),
      if_pos hc, setProp_opts (by decide) (by decide)]
    exact setOpt_lookup_self _ _ _

theorem applyOptions_IdentityFile (h : HostRecord) (o : HostOptions) :
    (truthy (jsOr o.identity o.IdentityFile) = false →
      lookupOpt (applyOptions h o).opts (strLit "IdentityFile") =
        lookupOpt h.opts (strLit "IdentityFile")) ∧
    (truthy (jsOr o.identity o.IdentityFile) = true →
      lookupOpt (applyOptions h o).opts (strLit "IdentityFile") =
        some (getStr (jsOr o.identity o.IdentityFile))) := by
  simp only [applyOptions]
  constructor
  · intro hc
    rw [if_neg (by rw [hc]; exact Bool.false_ne_true),
      condSetProp_lookup_other _ _ _ (by decide) (by decide) (by decide),
      condSetProp_lookup_other _ _ _ (by decide) (by decide) (by decide),
      condSetProp_lookup_other _ _ _ (by decide) (by decide) (by decide)]
  · intro hc
    rw [if_pos hc, setProp_opts (by decide) (by decide)]
    exact setOpt_lookup_self _ _ _

theorem optMatch_ws_sep {k w v : Str} (hk1 : k ≠ [])
    (hk2 : ∀ c ∈ k, isWordChar c = true) (hw1 : w ≠ [])
    (hw2 : ∀ c ∈ w, isWS c = true) (hv1 : v ≠ [])
    (hv2 : ∀ c, v.head? = some c → isWS c = false)
    (hv3 : ∀ c ∈ v, isLineTerm c = false) :
    optMatch (k ++ w ++ v) = some (k, v) := by
  obtain ⟨wc, wt, rfl⟩ : ∃ wc wt, w = wc :: wt := by
    cases w with
    | nil => exact absurd rfl hw1
    | cons wc wt => exact ⟨wc, wt, rfl⟩
  have hassoc : k ++ (wc :: wt) ++ v = k ++ (wc :: (wt ++ v)) := by
    rw [List.append_assoc]
    rfl
  rw [hassoc]
  have hwcws : isWS wc = true := hw2 wc (List.mem_cons_self wc wt)
  have ht := takeWhile_all_cons_append (p := isWordChar) (c := wc) (r := wt ++ v)
    hk2 (ws_not_word hwcws)
  have hd : List.dropWhile isWS (wc :: (wt ++ v)) = v := by
    show List.dropWhile isWS ((wc :: wt) ++ v) = v
    rw [dropWhile_all_append hw2]
    cases v with
    | nil => rfl
    | cons a t => exact dropWhile_cons_false (hv2 a rfl)
  have hcond : (v.isEmpty || v.any isLineTerm) = false := by
    rw [Bool.or_eq_false_iff]
    refine ⟨?_, ?_⟩
    · cases hn : v with
      | nil => exact absurd hn hv1
      | cons _ _ => rfl
    · rw [List.any_eq_false]
      intro x hx
      simp [hv3 x hx]
  unfold optMatch
  simp only [ht.1, ht.2, hd, hcond]
  rw [if_neg (fun he => hk1 (isEmpty_true_iff.mp he)), if_pos hwcws,
    if_neg (by decide : ¬(false = true))]

theorem findIdx?_none_all {α : Type} {p : α → Bool} :
    ∀ (l : List α) (i : Nat), (∀ x ∈ l, ¬p x = true) →
      List.findIdx? p l i = none := by
  intro l
  induction l with
  | nil => intro i _; exact List.findIdx?_nil
  | cons a as ih =>
    intro i h
    rw [List.findIdx?_cons, if_neg (h a (List.mem_cons_self a as))]
    exact ih (i + 1) (fun x hx => h x (List.mem_cons_of_mem a hx))

theorem find?_some_decomp {α : Type} {p : α → Bool} :
    ∀ {l : List α} {a : α}, l.find? p = some a →
      ∃ l1 l2, l = l1 ++ a :: l2 ∧ (∀ x ∈ l1, ¬p x = true) ∧ p a = true := by
  intro l
  induction l with
  | nil => intro a h; cases h
  | cons b bs ih =>
    intro a h
    by_cases hb : p b = true
    · rw [List.find?_cons_of_pos bs hb] at h
      injection h with h
      subst h
      exact ⟨[], bs, rfl, fun x hx => absurd hx (List.not_mem_nil x), hb⟩
    · rw [List.find?_cons_of_neg bs hb] at h
      obtain ⟨l1, l2, he, hl1, ha⟩ := ih h
      refine ⟨b :: l1, l2, by rw [he, List.cons_append], ?_, ha⟩
      intro x hx
      rcases List.mem_cons.mp hx with rfl | hx
      · exact hb
      · exact hl1 x hx

theorem hostMatch_hash {t : Str} (h : t.head? = some '#') :
    hostMatch t = none := by
  cases hh : hostMatch t with
  | none => rfl
  | some nm =>
    exfalso
    obtain ⟨a, b, c, d, c0, r0, ht, hhk, _⟩ := hostMatch_some_head_ws hh
    rw [ht] at h
    injection h with h
    subst h
    have h2 : ((decide ('#' = 'H') || decide ('#' = 'h')) &&
        (decide (b = 'O') || decide (b = 'o')) &&
        (decide (c = 'S') || decide (c = 's')) &&
        (decide (d = 'T') || decide (d = 't'))) = true := hhk
    rw [show (decide ('#' = 'H') || decide ('#' = 'h')) = false from by decide] at h2
    simp at h2

theorem hostMatch_skipped {l : Str}
    (hB : ((jsTrim l).isEmpty || (jsTrim l).head? = some '#') = true) :
    hostMatch (jsTrim l) = none := by
  rcases Bool.or_eq_true_iff.mp hB with h | h
  · rw [isEmpty_true_iff.mp h]
    rfl
  · exact hostMatch_hash (of_decide_eq_true h)

theorem mem_splitNl : ∀ {s l : Str} {c : Char}, c ∈ l → l ∈ splitNl s → c ∈ s := by
  intro s
  induction s with
  | nil =>
    intro l c hc hl
    rcases List.mem_singleton.mp hl with rfl
    cases hc
  | cons a t ih =>
    intro l c hc hl
    unfold splitNl at hl
    by_cases ha : a = '\n'
    · rw [if_pos ha] at hl
      rcases List.mem_cons.mp hl with rfl | hl2
      · cases hc
      · exact List.mem_cons_of_mem a (ih hc hl2)
    · rw [if_neg ha] at hl
      cases hs : splitNl t with
      | nil => exact absurd hs (splitNl_ne_nil t)
      | cons l0 ls =>
        rw [hs] at hl
        have hl2 : l ∈ (a :: l0) :: ls := hl
        rcases List.mem_cons.mp hl2 with rfl | hl3
        · rcases List.mem_cons.mp hc with rfl | hc2
          · exact List.mem_cons_self c t
          · exact List.mem_cons_of_mem a
              (ih hc2 (by rw [hs]; exact List.mem_cons_self l0 ls))
        · exact List.mem_cons_of_mem a
            (ih hc (by rw [hs]; exact List.mem_cons_of_mem l0 hl3))

theorem filterMap_cons_eq_none {α β : Type} (f : α → Option β) {a : α}
    (l : List α) (h : f a = none) :
    List.filterMap f (a :: l) = List.filterMap f l := by
  rw [List.filterMap_cons, h]

theorem filterMap_cons_eq_some {α β : Type} (f : α → Option β) {a : α} {b : β}
    (l : List α) (h : f a = some b) :
    List.filterMap f (a :: l) = b :: List.filterMap f l := by
  rw [List.filterMap_cons, h]

theorem parseLines_names : ∀ {lines : List Str},
    (∀ l ∈ lines, (optMatch (jsTrim l)).map Prod.fst ≠ some (strLit "name")) →
    ∀ (acc : List HostRecord) (cur : Option HostRecord),
    (parseLines lines acc cur).map (fun r : HostRecord => r.name) =
      acc.map (fun r : HostRecord => r.name) ++
      cur.toList.map (fun r : HostRecord => r.name) ++
      lines.filterMap (fun l => hostMatch (jsTrim l)) := by
  intro lines
  induction lines with
  | nil =>
    intro _ acc cur
    show (acc ++ cur.toList).map (fun r : HostRecord => r.name) = _
    rw [List.map_append, List.filterMap_nil, List.append_nil]
  | cons line rest ih =>
    intro hname acc cur
    have hname' : ∀ l ∈ rest,
        (optMatch (jsTrim l)).map Prod.fst ≠ some (strLit "name") :=
      fun l hl => hname l (List.mem_cons_of_mem line hl)
    cases hB : ((jsTrim line).isEmpty || (jsTrim line).head? = some '#') with
    | true =>
      rw [parseLines_skip rest acc cur hB, ih hname' acc cur,
        filterMap_cons_eq_none (fun l => hostMatch (jsTrim l)) rest
          (hostMatch_skipped hB)]
    | false =>
      cases hm : hostMatch (jsTrim line) with
      | some nm =>
        rw [parseLines_hostline rest acc cur hB hm,
          ih hname' (acc ++ cur.toList) (some ⟨nm, []⟩),
          filterMap_cons_eq_some (fun l => hostMatch (jsTrim l)) rest hm]
        simp [List.append_assoc]
      | none =>
        rw [filterMap_cons_eq_none (fun l => hostMatch (jsTrim l)) rest hm]
        cases cur with
        | none =>
          rw [parseLines_nohost_none rest acc hB hm, ih hname' acc none]
        | some r0 =>
          cases ho : optMatch (jsTrim line) with
          | some kv =>
            cases kv with
            | mk k v =>
              have hk : k ≠ strLit "name" := by
                intro he
                apply hname line (List.mem_cons_self line rest)
                rw [ho, he]
                rfl
              rw [parseLines_optline_step rest acc r0 hB hm ho,
                ih hname' acc (some (setProp r0 k v))]
              show _ ++ [(setProp r0 k v).name] ++ _ = _
              rw [setProp_name hk]
              rfl
          | none =>
            rw [parseLines_ignored rest acc r0 hB hm ho, ih hname' acc (some r0)]

/-! ## Claims -/

/-- C1: for every HostCollection that is the output of parse on some text,
applying stringify and then parse yields a collection with the same records
in the same order, each record equal to the original in name, in its set of
option key/value pairs, and in option insertion order (list equality of
records). -/
theorem c1_parse_stringify_roundtrip (content : Str) :
    parse (stringify (parse content)) = parse content :=
  parse_stringify (parse_wf content)

/-- C3 counterexample: three lines that each consist of a key of one or
more non-whitespace characters, followed by whitespace and a non-empty
remainder, for which the parser nevertheless records nothing.  `my-key
value`: the key regex `\w+` accepts only word characters, so the
hyphenated key does not match.  `__proto__ foo`: the pattern matches, but
the assignment hits the inherited `__proto__` accessor, which silently
discards a string value, so no own property appears.  `Port a\rb`: the
value capture `.+` cannot cross the embedded carriage return (a line
terminator), so the line does not match and is dropped.  In each case the
open record ends up with no options. -/
theorem c3_counterexample :
    parse (strLit "Host h\nmy-key value") =
      [{ name := strLit "h", opts := [] }] ∧
    parse (strLit "Host h\n__proto__ foo") =
      [{ name := strLit "h", opts := [] }] ∧
    parse (strLit "Host h\nPort a\rb") =
      [{ name := strLit "h", opts := [] }] := by
  decide

/-- C3 (amended): during parsing, while a record is open, every non-Host
line whose trimmed content is a key of one or more WORD characters
(letters, digits, underscore — not arbitrary non-whitespace), followed by
whitespace and a non-empty remainder free of line terminators, has that
key assigned to the remainder on the open record object — meaning: an
ordinary key is recorded in the record's options, the key `name`
overwrites the record's name, and the key `__proto__` is swallowed by the
inherited accessor, leaving the record unchanged; trimmed non-empty
non-comment non-Host lines admitting no such decomposition are silently
ignored. -/
theorem c3_option_line_amended (line : Str) (rest : List Str)
    (hosts : List HostRecord) (r : HostRecord) :
    (∀ k w v, jsTrim line = k ++ w ++ v → k ≠ [] →
      (∀ c ∈ k, isWordChar c = true) → w ≠ [] → (∀ c ∈ w, isWS c = true) →
      v ≠ [] → (∀ c, v.head? = some c → isWS c = false) →
      (∀ c ∈ v, isLineTerm c = false) →
      hostMatch (jsTrim line) = none →
      parseLines (line :: rest) hosts (some r) =
        parseLines rest hosts (some (setProp r k v)) ∧
      (k ≠ strLit "name" → k ≠ strLit "__proto__" →
        lookupOpt (setProp r k v).opts k = some v) ∧
      (k = strLit "__proto__" → setProp r k v = r) ∧
      (k = strLit "name" → (setProp r k v).name = v)) ∧
    (jsTrim line ≠ [] → (jsTrim line).head? ≠ some '#' →
      hostMatch (jsTrim line) = none →
      (¬ ∃ k w v, jsTrim line = k ++ w ++ v ∧ k ≠ [] ∧
        (∀ c ∈ k, isWordChar c = true) ∧ w ≠ [] ∧ (∀ c ∈ w, isWS c = true) ∧
        v ≠ [] ∧ (∀ c, v.head? = some c → isWS c = false) ∧
        (∀ c ∈ v, isLineTerm c = false)) →
      parseLines (line :: rest) hosts (some r) =
        parseLines rest hosts (some r)) := by
  constructor
  · intro k w v heq hk1 hk2 hw1 hw2 hv1 hv2 hv3 hhm
    have hom : optMatch (jsTrim line) = some (k, v) := by
      rw [heq]
      exact optMatch_ws_sep hk1 hk2 hw1 hw2 hv1 hv2 hv3
    have hcond : ((jsTrim line).isEmpty ||
        (jsTrim line).head? = some '#') = false := by
      obtain ⟨kc, kt, rfl⟩ : ∃ kc kt, k = kc :: kt := by
        cases k with
        | nil => exact absurd rfl hk1
        | cons kc kt => exact ⟨kc, kt, rfl⟩
      rw [heq]
      apply Bool.or_eq_false_iff.mpr
      refine ⟨rfl, decide_eq_false ?_⟩
      intro hh
      have h2 : some kc = some '#' := hh
      injection h2 with h2
      have := hk2 kc (List.mem_cons_self kc kt)
      rw [h2] at this
      cases this
    refine ⟨parseLines_optline_step rest hosts r hcond hhm hom, ?_, ?_, ?_⟩
    · intro hkn hkp
      rw [setProp_opts hkn hkp]
      exact setOpt_lookup_self _ _ _
    · intro he
      subst he
      unfold setProp
      rw [if_neg (by decide), if_pos rfl]
    · intro he
      subst he
      unfold setProp
      rw [if_pos rfl]
  · intro hne hhash hhm hno
    have hom : optMatch (jsTrim line) = none := by
      cases ho : optMatch (jsTrim line) with
      | none => rfl
      | some kv =>
        exfalso
        apply hno
        cases kv with
        | mk k v =>
          obtain ⟨hkeq, hkne, hkw, hveq, hvne, hvh, ⟨c, rest2, hdw, hcws⟩, _,
            hvlt⟩ := optMatch_some_struct ho
          refine ⟨k, ((jsTrim line).dropWhile isWordChar).takeWhile isWS, v,
            ?_, hkne, hkw, ?_, ?_, hvne, hvh, hvlt⟩
          · rw [hkeq, hveq, List.append_assoc,
              List.takeWhile_append_dropWhile isWS,
              List.takeWhile_append_dropWhile isWordChar]
          · rw [hdw, List.takeWhile_cons, if_pos hcws]
            exact List.cons_ne_nil c _
          · intro c2 hc2
            exact List.mem_takeWhile_imp hc2
    exact parseLines_ignored rest hosts r (by
      apply Bool.or_eq_false_iff.mpr
      refine ⟨?_, decide_eq_false hhash⟩
      cases hg : (jsTrim line).isEmpty with
      | false => rfl
      | true => exact absurd (isEmpty_true_iff.mp hg) hne) hhm hom

/-- Witness for C3 (amended): the line `    Port 22` is recorded as
`Port -> 22` in the open record, and the undecomposable line `x` is
ignored. -/
theorem c3_option_line_amended_witness :
    (parseLines [strLit "    Port 22"] [] (some { name := strLit "h", opts := [] }) =
      parseLines [] [] (some (setProp { name := strLit "h", opts := [] }
        (strLit "Port") (strLit "22")))) ∧
    (parseLines [strLit "x"] [] (some { name := strLit "h", opts := [] }) =
      parseLines [] [] (some { name := strLit "h", opts := [] })) := by
  constructor
  · exact ((c3_option_line_amended (strLit "    Port 22") [] []
      { name := strLit "h", opts := [] }).1 (strLit "Port") (strLit " ")
      (strLit "22") (by decide) (by decide) (by decide) (by decide) (by decide)
      (by decide) (by decide) (by decide) (by decide)).1
  · apply (c3_option_line_amended (strLit "x") [] []
      { name := strLit "h", opts := [] }).2 (by decide) (by decide) (by decide)
    rintro ⟨k, w, v, heq, hk1, _, hw1, _, hv1, _, _⟩
    have he : jsTrim (strLit "x") = ['x'] := by decide
    rw [he] at heq
    have hlen := congrArg List.length heq
    simp only [List.length_append, List.length_cons, List.length_nil] at hlen
    have l1 := List.length_pos.mpr hk1
    have l2 := List.length_pos.mpr hw1
    have l3 := List.length_pos.mpr hv1
    omega

/-- C8: when an option key that is already present in the open record is
assigned again by a later option line, the later value overwrites the
earlier one, the list of keys (hence the key position) is unchanged, and
every other key keeps its value.  (The key is required not to be
`__proto__`: its assignment creates no own property, so it can never be
present in the options of a record built by the parse loop in the first
place.) -/
theorem c8_repeat_key_position (line : Str) (rest : List Str)
    (hosts : List HostRecord) (r : HostRecord) (k v : Str)
    (hc : ((jsTrim line).isEmpty || (jsTrim line).head? = some '#') = false)
    (hm : hostMatch (jsTrim line) = none)
    (ho : optMatch (jsTrim line) = some (k, v))
    (hk : k ≠ strLit "name") (hp : k ≠ strLit "__proto__")
    (hmem : k ∈ r.opts.map Prod.fst) :
    parseLines (line :: rest) hosts (some r) =
      parseLines rest hosts (some (setProp r k v)) ∧
    (setProp r k v).name = r.name ∧
    (setProp r k v).opts.map Prod.fst = r.opts.map Prod.fst ∧
    lookupOpt (setProp r k v).opts k = some v ∧
    (∀ k2, k2 ≠ k → lookupOpt (setProp r k v).opts k2 = lookupOpt r.opts k2) := by
  refine ⟨parseLines_optline_step rest hosts r hc hm ho, setProp_name hk,
    ?_, ?_, ?_⟩
  · rw [setProp_opts hk hp]
    exact setOpt_mem_keys v hmem
  · rw [setProp_opts hk hp]
    exact setOpt_lookup_self _ _ _
  · intro k2 h2
    rw [setProp_opts hk hp]
    exact setOpt_lookup_other _ _ h2

/-- Witness for C8: re-assigning `Port` in a record that already has
`Port` then `User` keeps the key order `[Port, User]` and stores the new
value. -/
theorem c8_repeat_key_position_witness :
    lookupOpt (setProp { name := strLit "h",
                         opts := [(strLit "Port", strLit "22"),
                                  (strLit "User", strLit "u")] }
        (strLit "Port") (strLit "99")).opts (strLit "Port") =
      some (strLit "99") ∧
    (setProp { name := strLit "h",
               opts := [(strLit "Port", strLit "22"),
                        (strLit "User", strLit "u")] }
        (strLit "Port") (strLit "99")).opts.map Prod.fst =
      [strLit "Port", strLit "User"] := by
  have h := c8_repeat_key_position (strLit "    Port 99") [] []
    { name := strLit "h",
      opts := [(strLit "Port", strLit "22"), (strLit "User", strLit "u")] }
    (strLit "Port") (strLit "99") (by decide) (by decide) (by decide)
    (by decide) (by decide) (by decide)
  refine ⟨h.2.2.2.1, ?_⟩
  rw [h.2.2.1]
  decide

/-- C9 counterexample: inside the block opened by `Host h`, the option
line `name evil` matches the option pattern with key `name` and is
assigned onto the record object, overwriting the name captured from the
Host line: the parsed record is named `evil`, not `h`. -/
theorem c9_counterexample :
    parse (strLit "Host h\nname evil") =
      [{ name := strLit "evil", opts := [] }] := by
  decide

/-- C9 (amended): provided no line of the input matches the option pattern
with the key exactly `name`, the names of the records output by parse are,
in order, exactly the captures of the Host lines of the input (the `Host`
keyword matched case-insensitively, followed by whitespace and a non-empty
remainder; the capture is the trimmed remainder): the i-th record is named
by the i-th Host line — the Host line that opened it — regardless of any
lines that follow inside its block. -/
theorem c9_names_from_host_lines (content : Str)
    (hname : ∀ l ∈ splitNl content,
      (optMatch (jsTrim l)).map Prod.fst ≠ some (strLit "name")) :
    (parse content).map (fun r : HostRecord => r.name) =
      (splitNl content).filterMap (fun l => hostMatch (jsTrim l)) := by
  unfold parse
  by_cases hg : (jsTrim content).isEmpty = true
  · rw [if_pos hg]
    have hallws : ∀ c ∈ content, isWS c = true :=
      jsTrim_eq_nil (isEmpty_true_iff.mp hg)
    symm
    show List.filterMap (fun l => hostMatch (jsTrim l)) (splitNl content) = []
    rw [List.filterMap_eq_nil_iff]
    intro l hl
    show hostMatch (jsTrim l) = none
    have hjt : jsTrim l = [] := by
      have h2 := jsTrim_wsDrop (b := [])
        (fun c hc => hallws c (mem_splitNl hc hl))
      rw [List.append_nil] at h2
      exact h2
    rw [hjt]
    rfl
  · rw [if_neg hg]
    have h := parseLines_names hname [] none
    rw [h]
    rfl

/-- Witness for C9 (amended): in `Host a`, `  User x`, `HOST  b `, the two
records are named by the two Host lines in order: `a`, then `b` (the
second through the case-insensitive keyword, with the remainder
trimmed). -/
theorem c9_names_from_host_lines_witness :
    (parse (strLit "Host a\n  User x\nHOST  b ")).map
        (fun r : HostRecord => r.name) =
      (splitNl (strLit "Host a\n  User x\nHOST  b ")).filterMap
        (fun l => hostMatch (jsTrim l)) :=
  c9_names_from_host_lines (strLit "Host a\n  User x\nHOST  b ") (by decide)

/-- C7: remove(name) fails with the not-found outcome when no record named
name exists, leaving the persisted file unchanged; otherwise it deletes
exactly the first record with that name and persists the survivors, every
surviving record keeping its relative order (the written collection is the
concatenation of the untouched prefix and suffix). -/
theorem c7_remove_order (name : Str) (file : Option Str) :
    ((read file).find? (fun h => h.name = name) = none →
      removeHost name file =
        (.failure (strLit "Host not found: " ++ name), file)) ∧
    (∀ l1 h l2, read file = l1 ++ h :: l2 → (∀ g ∈ l1, g.name ≠ name) →
      h.name = name →
      removeHost name file = (.success, write (l1 ++ l2))) := by
  constructor
  · intro hn
    simp only [removeHost]
    have hidx : (read file).findIdx? (fun h => h.name = name) = none :=
      findIdx?_none_all (read file) 0 (List.find?_eq_none.mp hn)
    rw [hidx]
  · intro l1 h l2 hd hl1 hh
    simp only [removeHost]
    rw [hd, findIdx?_name_decomp hh l1 0 (fun g hg => hl1 g hg), Nat.zero_add]
    show (SimpleOutcome.success, write ((l1 ++ h :: l2).eraseIdx l1.length)) = _
    rw [eraseIdx_at_decomp l1 l2 h]

/-- Witness for C7: removing the middle record of a three-record file
keeps the outer two in their original relative order, and removing an
absent name fails with the file unchanged. -/
theorem c7_remove_order_witness :
    removeHost (strLit "b") (some (strLit "Host a\n\nHost b\n\nHost c\n")) =
      (.success, write ([{ name := strLit "a", opts := [] }] ++
        [{ name := strLit "c", opts := [] }])) ∧
    removeHost (strLit "z") (some (strLit "Host a\n")) =
      (.failure (strLit "Host not found: " ++ strLit "z"),
        some (strLit "Host a\n")) := by
  constructor
  · exact (c7_remove_order (strLit "b")
      (some (strLit "Host a\n\nHost b\n\nHost c\n"))).2
      [{ name := strLit "a", opts := [] }] { name := strLit "b", opts := [] }
      [{ name := strLit "c", opts := [] }] (by decide) (by decide) (by decide)
  · exact (c7_remove_order (strLit "z") (some (strLit "Host a\n"))).1 (by decide)

/-- C5: edit(name, fields) fails with the not-found outcome when no record
named name exists (file unchanged); otherwise the first record named name
is replaced in place by the partially updated record and the collection is
persisted with all other records untouched; the update overwrites exactly
the truthy supplied recognized fields (HostName, User, Port, IdentityFile),
every unsupplied recognized field keeps its prior value, every existing key
keeps its prior insertion position (old key list is a prefix of the new),
and unrecognized keys are never touched. -/
theorem c5_edit_partial_update (name : Str) (o : HostOptions) (file : Option Str) :
    ((read file).find? (fun h => h.name = name) = none →
      editHost name o file =
        (.failure (strLit "Host not found: " ++ name), file)) ∧
    (∀ l1 h l2, read file = l1 ++ h :: l2 → (∀ g ∈ l1, g.name ≠ name) →
      h.name = name →
      editHost name o file =
        (.success (applyOptions h o),
          write (l1 ++ applyOptions h o :: l2)) ∧
      (applyOptions h o).name = h.name ∧
      (∀ k, k ∉ recognizedKeys →
        lookupOpt (applyOptions h o).opts k = lookupOpt h.opts k) ∧
      (∃ added, (applyOptions h o).opts.map Prod.fst =
        h.opts.map Prod.fst ++ added) ∧
      (truthy (jsOr o.host o.HostName) = false →
        lookupOpt (applyOptions h o).opts (strLit "HostName") =
          lookupOpt h.opts (strLit "HostName")) ∧
      (truthy (jsOr o.user o.User) = false →
        lookupOpt (applyOptions h o).opts (strLit "User") =
          lookupOpt h.opts (strLit "User")) ∧
      (truthy (jsOr o.port o.Port) = false →
        lookupOpt (applyOptions h o).opts (strLit "Port") =
          lookupOpt h.opts (strLit "Port")) ∧
      (truthy (jsOr o.identity o.IdentityFile) = false →
        lookupOpt (applyOptions h o).opts (strLit "IdentityFile") =
          lookupOpt h.opts (strLit "IdentityFile")) ∧
      (truthy (jsOr o.host o.HostName) = true →
        lookupOpt (applyOptions h o).opts (strLit "HostName") =
          some (getStr (jsOr o.host o.HostName))) ∧
      (truthy (jsOr o.user o.User) = true →
        lookupOpt (applyOptions h o).opts (strLit "User") =
          some (getStr (jsOr o.user o.User))) ∧
      (truthy (jsOr o.port o.Port) = true →
        lookupOpt (applyOptions h o).opts (strLit "Port") =
          some (getStr (jsOr o.port o.Port))) ∧
      (truthy (jsOr o.identity o.IdentityFile) = true →
        lookupOpt (applyOptions h o).opts (strLit "IdentityFile") =
          some (getStr (jsOr o.identity o.IdentityFile)))) := by
  constructor
  · intro hn
    simp only [editHost]
    rw [hn]
  · intro l1 h l2 hd hl1 hh
    have hf : (read file).find? (fun x => x.name = name) = some h := by
      rw [hd]
      exact find?_name_decomp hl1 hh
    refine ⟨?_, applyOptions_name h o,
      fun k hk => applyOptions_lookup_other h o hk,
      applyOptions_keys h o, (applyOptions_HostName h o).1,
      (applyOptions_User h o).1, (applyOptions_Port h o).1,
      (applyOptions_IdentityFile h o).1, (applyOptions_HostName h o).2,
      (applyOptions_User h o).2, (applyOptions_Port h o).2,
      (applyOptions_IdentityFile h o).2⟩
    simp only [editHost]
    rw [hf]
    show (HostOutcome.success (applyOptions h o),
      write (replaceFirst (read file) name (applyOptions h o))) = _
    rw [hd, replaceFirst_decomp hl1 hh]

/-- Witness for C5: editing the port of a record that has HostName, User,
Port and IdentityFile set changes only the Port value. -/
theorem c5_edit_partial_update_witness :
    editHost (strLit "a") { port := some (strLit "3333") }
        (some (strLit "Host a\n  HostName 1.2.3.4\n  User u\n  Port 22\n  IdentityFile f\n")) =
      (.success (applyOptions
          { name := strLit "a",
            opts := [(strLit "HostName", strLit "1.2.3.4"),
                     (strLit "User", strLit "u"), (strLit "Port", strLit "22"),
                     (strLit "IdentityFile", strLit "f")] }
          { port := some (strLit "3333") }),
        write ([] ++ applyOptions
          { name := strLit "a",
            opts := [(strLit "HostName", strLit "1.2.3.4"),
                     (strLit "User", strLit "u"), (strLit "Port", strLit "22"),
                     (strLit "IdentityFile", strLit "f")] }
          { port := some (strLit "3333") } :: [])) := by
  exact ((c5_edit_partial_update (strLit "a") { port := some (strLit "3333") }
    (some (strLit "Host a\n  HostName 1.2.3.4\n  User u\n  Port 22\n  IdentityFile f\n"))).2
    [] { name := strLit "a",
         opts := [(strLit "HostName", strLit "1.2.3.4"),
                  (strLit "User", strLit "u"), (strLit "Port", strLit "22"),
                  (strLit "IdentityFile", strLit "f")] }
    [] (by decide) (by decide) (by decide)).1

/-- C2 counterexample: importConfig performs no uniqueness check — feeding
it a decoded array with two entries named `a` succeeds and the persisted
file then parses to two records that share the name `a`. -/
theorem c2_counterexample :
    importConfig (some (Json.jarr
        [Json.jobj [(strLit "name", Json.jstr (strLit "a"))],
         Json.jobj [(strLit "name", Json.jstr (strLit "a"))]])) none =
      Except.ok (ImportOutcome.success 2,
        some (stringifyJson
          [Json.jobj [(strLit "name", Json.jstr (strLit "a"))],
           Json.jobj [(strLit "name", Json.jstr (strLit "a"))]])) ∧
    (read (some (stringifyJson
        [Json.jobj [(strLit "name", Json.jstr (strLit "a"))],
         Json.jobj [(strLit "name", Json.jstr (strLit "a"))]]))).map
      (fun h => h.name) = [strLit "a", strLit "a"] := by
  constructor
  · rfl
  · decide

/-- C2 (amended): addHost and copyHost fail without touching the persisted
file when the new name is already present, and on success from a
collection with pairwise distinct names the persisted collection again has
pairwise distinct names; importConfig, by contrast, enforces no
uniqueness (see the counterexample). -/
theorem c2_unique_add_copy (name fromName toName : Str) (o : HostOptions)
    (file : Option Str) :
    (((read file).find? (fun h => h.name = name)).isSome = true →
      addHost name o file =
        (.failure (strLit "Host already exists: " ++ name), file)) ∧
    ((read file).find? (fun h => h.name = name) = none →
      (addHost name o file).2 =
        write (read file ++ [applyOptions { name := name, opts := [] } o]) ∧
      (((read file).map (fun h => h.name)).Nodup →
        ((read file ++ [applyOptions { name := name, opts := [] } o]).map
          (fun h => h.name)).Nodup)) ∧
    (∀ src : HostRecord,
      (read file).find? (fun h => h.name = fromName) = some src →
      ((read file).find? (fun h => h.name = toName)).isSome = true →
      copyHost fromName toName file =
        (.failure (strLit "Host already exists: " ++ toName), file)) ∧
    (∀ src : HostRecord,
      (read file).find? (fun h => h.name = fromName) = some src →
      (read file).find? (fun h => h.name = toName) = none →
      (copyHost fromName toName file).2 =
        write (read file ++ [{ src with name := toName }]) ∧
      (((read file).map (fun h => h.name)).Nodup →
        ((read file ++ [{ src with name := toName }]).map
          (fun h : HostRecord => h.name)).Nodup)) := by
  refine ⟨?_, ?_, ?_, ?_⟩
  · intro hs
    simp only [addHost]
    cases hf : (read file).find? (fun h => h.name = name) with
    | none =>
      rw [hf] at hs
      exact absurd hs (by decide)
    | some g => rfl
  · intro hf
    simp only [addHost]
    rw [hf]
    refine ⟨rfl, ?_⟩
    intro hnd
    rw [List.map_append]
    apply List.nodup_append.mpr
    refine ⟨hnd, by simp, ?_⟩
    intro x hx hx2
    simp only [List.map_cons, List.map_nil, List.mem_singleton,
      applyOptions_name] at hx2
    obtain ⟨g, hg, hgx⟩ := List.mem_map.mp hx
    have hne := List.find?_eq_none.mp hf g hg
    simp only [decide_eq_true_eq] at hne
    exact hne (hgx.trans hx2)
  · intro src hfsrc hs
    cases hft : (read file).find? (fun h => h.name = toName) with
    | none =>
      rw [hft] at hs
      exact absurd hs (by decide)
    | some g =>
      simp only [copyHost]
      rw [hfsrc, hft]
  · intro src hfsrc hft
    simp only [copyHost]
    rw [hfsrc, hft]
    refine ⟨rfl, ?_⟩
    intro hnd
    rw [List.map_append]
    apply List.nodup_append.mpr
    refine ⟨hnd, by simp, ?_⟩
    intro x hx hx2
    simp only [List.map_cons, List.map_nil, List.mem_singleton] at hx2
    obtain ⟨g, hg, hgx⟩ := List.mem_map.mp hx
    have hne := List.find?_eq_none.mp hft g hg
    simp only [decide_eq_true_eq] at hne
    exact hne (hgx.trans hx2)

/-- Witness for C2 (amended): adding an existing name fails with the file
unchanged; adding a fresh name to a duplicate-free file writes a
duplicate-free collection; copying onto an existing name fails. -/
theorem c2_unique_add_copy_witness :
    addHost (strLit "a") {} (some (strLit "Host a\n")) =
      (.failure (strLit "Host already exists: " ++ strLit "a"),
        some (strLit "Host a\n")) ∧
    ((read (some (strLit "Host a\n")) ++
      [applyOptions { name := strLit "b", opts := [] } {}]).map
        (fun h => h.name)).Nodup ∧
    copyHost (strLit "a") (strLit "a") (some (strLit "Host a\n")) =
      (.failure (strLit "Host already exists: " ++ strLit "a"),
        some (strLit "Host a\n")) := by
  refine ⟨?_, ?_, ?_⟩
  · exact (c2_unique_add_copy (strLit "a") (strLit "a") (strLit "a") {}
      (some (strLit "Host a\n"))).1 (by decide)
  · exact ((c2_unique_add_copy (strLit "b") (strLit "a") (strLit "a") {}
      (some (strLit "Host a\n"))).2.1 (by decide)).2 (by decide)
  · exact (c2_unique_add_copy (strLit "b") (strLit "a") (strLit "a") {}
      (some (strLit "Host a\n"))).2.2.1 { name := strLit "a", opts := [] }
      (by decide) (by decide)

/-- C4 counterexample: the decoded value `[1]` is not a sequence of
record-shaped entries, yet importConfig succeeds instead of failing with
the shape error, because the source checks only `Array.isArray`; and the
decoded value `[null]` produces neither a shape-error return nor any
returned error object — serialization reads `.name` of `null`, so an
uncaught TypeError escapes the function. -/
theorem c4_counterexample :
    importConfig (some (Json.jarr [Json.jnum 1])) none =
      Except.ok (ImportOutcome.success 1,
        some (stringifyJson [Json.jnum 1])) ∧
    importConfig (some (Json.jarr [Json.null])) none =
      Except.error JsError.typeError := by
  exact ⟨rfl, rfl⟩

/-- C4 (amended): importConfig, applied to the outcome of decoding the
given text, returns the decode-error outcome exactly when decoding failed,
returns the shape-error outcome exactly when the decoded value is not an
array (entry shapes are not validated), leaves the persisted file
unmodified on either failure, and for an array: if no entry is `null`, it
succeeds and writes out exactly the serialized imported entries,
independent of the previous file contents (replacement, not merge), while
if some entry is `null`, an uncaught TypeError escapes (the try/catch
covers only the decode step) before anything is written. -/
theorem c4_import_replace (file : Option Str) :
    importConfig none file =
      Except.ok (.failure (strLit "Invalid JSON"), file) ∧
    (∀ j : Json, (∀ elems, j ≠ Json.jarr elems) →
      importConfig (some j) file =
        Except.ok (.failure (strLit "Expected array of hosts"), file)) ∧
    (∀ elems, elems.any jsNull = false →
      importConfig (some (Json.jarr elems)) file =
        Except.ok (.success elems.length, some (stringifyJson elems))) ∧
    (∀ elems, elems.any jsNull = true →
      importConfig (some (Json.jarr elems)) file =
        Except.error JsError.typeError) := by
  refine ⟨rfl, ?_, ?_, ?_⟩
  · intro j hj
    cases j with
    | jarr elems => exact absurd rfl (hj elems)
    | null => rfl
    | jbool b => rfl
    | jnum n => rfl
    | jstr s => rfl
    | jobj f => rfl
  · intro elems hn
    show (match stringifyJsonE elems with
      | .error e => Except.error e
      | .ok text =>
        Except.ok (ImportOutcome.success elems.length, some text)) = _
    unfold stringifyJsonE
    rw [hn, if_neg (by decide : ¬(false = true))]
  · intro elems hn
    show (match stringifyJsonE elems with
      | .error e => Except.error e
      | .ok text =>
        Except.ok (ImportOutcome.success elems.length, some text)) = _
    unfold stringifyJsonE
    rw [hn, if_pos rfl]

/-- Witness for C4 (amended): the decoded object for the text
`\x7b"a":1\x7d` (valid encoding, wrong shape) produces the shape-error
outcome with the absent file untouched; the array `["x"]` (no null entry)
imports successfully; the array `[null]` raises the uncaught TypeError. -/
theorem c4_import_replace_witness :
    importConfig (some (Json.jobj [(strLit "a", Json.jnum 1)])) none =
      Except.ok (.failure (strLit "Expected array of hosts"), none) ∧
    importConfig (some (Json.jarr [Json.jstr (strLit "x")])) none =
      Except.ok (.success 1, some (stringifyJson [Json.jstr (strLit "x")])) ∧
    importConfig (some (Json.jarr [Json.null])) (some (strLit "Host a\n")) =
      Except.error JsError.typeError :=
  ⟨(c4_import_replace none).2.1 (Json.jobj [(strLit "a", Json.jnum 1)])
      (fun _ h => by cases h),
   (c4_import_replace none).2.2.1 [Json.jstr (strLit "x")] (by decide),
   (c4_import_replace (some (strLit "Host a\n"))).2.2.2 [Json.null] (by decide)⟩

/-- C10: addHost and editHost treat a falsy supplied field value — the
empty string, like an absent field — as not provided, whatever the other
supplied fields are: the empty string is falsy, a falsy alias defers to
its capitalized sibling, the record updated by editHost and the record
built by addHost are both applyOptions of the supplied options, and for
any options object whose combined guard for a recognized field
(`options.x || options.X`) is falsy — in particular both aliases absent or
the empty string — applyOptions leaves that field's prior value on any
record unchanged and leaves it unset on the fresh record that addHost
builds, while the other fields are processed normally. -/
theorem c10_falsy_fields_ignored (name : Str) (o : HostOptions)
    (file : Option Str) (h : HostRecord) :
    truthy (some []) = false ∧
    (∀ a b : Option Str, truthy a = false → jsOr a b = b) ∧
    ((read file).find? (fun g => g.name = name) = none →
      addHost name o file =
        (.success (applyOptions { name := name, opts := [] } o),
          write (read file ++ [applyOptions { name := name, opts := [] } o]))) ∧
    (∀ found, (read file).find? (fun g => g.name = name) = some found →
      editHost name o file =
        (.success (applyOptions found o),
          write (replaceFirst (read file) name (applyOptions found o)))) ∧
    (truthy (jsOr o.host o.HostName) = false →
      lookupOpt (applyOptions h o).opts (strLit "HostName") =
        lookupOpt h.opts (strLit "HostName") ∧
      lookupOpt (applyOptions { name := name, opts := [] } o).opts
        (strLit "HostName") = none) ∧
    (truthy (jsOr o.user o.User) = false →
      lookupOpt (applyOptions h o).opts (strLit "User") =
        lookupOpt h.opts (strLit "User") ∧
      lookupOpt (applyOptions { name := name, opts := [] } o).opts
        (strLit "User") = none) ∧
    (truthy (jsOr o.port o.Port) = false →
      lookupOpt (applyOptions h o).opts (strLit "Port") =
        lookupOpt h.opts (strLit "Port") ∧
      lookupOpt (applyOptions { name := name, opts := [] } o).opts
        (strLit "Port") = none) ∧
    (truthy (jsOr o.identity o.IdentityFile) = false →
      lookupOpt (applyOptions h o).opts (strLit "IdentityFile") =
        lookupOpt h.opts (strLit "IdentityFile") ∧
      lookupOpt (applyOptions { name := name, opts := [] } o).opts
        (strLit "IdentityFile") = none) := by
  refine ⟨rfl, ?_, ?_, ?_, ?_, ?_, ?_, ?_⟩
  · intro a b ha
    unfold jsOr
    rw [ha, if_neg (by decide : ¬(false = true))]
  · intro hf
    simp only [addHost]
    rw [hf]
  · intro found hf
    simp only [editHost]
    rw [hf]
  · intro hc
    exact ⟨(applyOptions_HostName h o).1 hc,
      by rw [(applyOptions_HostName { name := name, opts := [] } o).1 hc]; rfl⟩
  · intro hc
    exact ⟨(applyOptions_User h o).1 hc,
      by rw [(applyOptions_User { name := name, opts := [] } o).1 hc]; rfl⟩
  · intro hc
    exact ⟨(applyOptions_Port h o).1 hc,
      by rw [(applyOptions_Port { name := name, opts := [] } o).1 hc]; rfl⟩
  · intro hc
    exact ⟨(applyOptions_IdentityFile h o).1 hc,
      by rw [(applyOptions_IdentityFile { name := name, opts := [] } o).1 hc]; rfl⟩

/-- Witness for C10: with options carrying an empty-string port alongside
a supplied user, editing leaves the record's prior Port value in place
(while the User field is processed), and the fresh record addHost builds
carries no Port. -/
theorem c10_falsy_fields_ignored_witness :
    truthy (some []) = false ∧
    (lookupOpt (applyOptions
        { name := strLit "a", opts := [(strLit "Port", strLit "22")] }
        { user := some (strLit "u"), port := some [] }).opts (strLit "Port") =
      lookupOpt [(strLit "Port", strLit "22")] (strLit "Port") ∧
     lookupOpt (applyOptions { name := strLit "b", opts := [] }
        { user := some (strLit "u"), port := some [] }).opts
       (strLit "Port") = none) :=
  ⟨(c10_falsy_fields_ignored (strLit "b")
      { user := some (strLit "u"), port := some [] } none
      { name := strLit "a", opts := [(strLit "Port", strLit "22")] }).1,
   (c10_falsy_fields_ignored (strLit "b")
      { user := some (strLit "u"), port := some [] } none
      { name := strLit "a", opts := [(strLit "Port", strLit "22")] }).2.2.2.2.2.2.1
     (by decide)⟩

/-- C6: copy(from, to) fails with the not-found outcome when from is
absent and with the duplicate outcome when from is present and to is
already present (persisted file unchanged in both cases); otherwise it
appends a record named to carrying every option of from (the records share
no mutable state: the core reloads the persisted file on every operation),
and — for well-formed collections, names and option values — a later edit
of the copy leaves the source record as read from the persisted file
unchanged, and a later edit of the source leaves the copy unchanged. -/
theorem c6_copy_deep_isolation (fromName toName : Str) (file : Option Str) :
    ((read file).find? (fun h => h.name = fromName) = none →
      copyHost fromName toName file =
        (.failure (strLit "Host not found: " ++ fromName), file)) ∧
    (∀ src : HostRecord,
      (read file).find? (fun h => h.name = fromName) = some src →
      ((read file).find? (fun h => h.name = toName)).isSome = true →
      copyHost fromName toName file =
        (.failure (strLit "Host already exists: " ++ toName), file)) ∧
    (∀ src : HostRecord,
      (read file).find? (fun h => h.name = fromName) = some src →
      (read file).find? (fun h => h.name = toName) = none →
      copyHost fromName toName file =
        (.success { src with name := toName },
          write (read file ++ [{ src with name := toName }])) ∧
      ({ src with name := toName } : HostRecord).opts = src.opts ∧
      ((∀ r ∈ read file, WFRecord r) → wfStr toName →
        ∀ o : HostOptions, wfOptions o →
          getHost fromName (editHost toName o
              (write (read file ++ [{ src with name := toName }]))).2 =
            getHost fromName file ∧
          getHost toName (editHost fromName o
              (write (read file ++ [{ src with name := toName }]))).2 =
            some { src with name := toName })) := by
  refine ⟨?_, ?_, ?_⟩
  · intro hn
    simp only [copyHost]
    rw [hn]
  · intro src hfsrc hs
    cases hft : (read file).find? (fun h => h.name = toName) with
    | none =>
      rw [hft] at hs
      exact absurd hs (by decide)
    | some g =>
      simp only [copyHost]
      rw [hfsrc, hft]
  · intro src hfsrc hft
    refine ⟨?_, rfl, ?_⟩
    · simp only [copyHost]
      rw [hfsrc, hft]
    · intro hw hwto o ho
      have hfromname : src.name = fromName := by
        have := List.find?_some hfsrc
        simpa using this
      have hnomatch_to : ∀ g ∈ read file, g.name ≠ toName := by
        intro g hg
        have := List.find?_eq_none.mp hft g hg
        simpa using this
      have hne_ft : fromName ≠ toName := by
        intro e
        apply hnomatch_to src (List.mem_of_find?_eq_some hfsrc)
        rw [hfromname, e]
      have hsrc_wf : WFRecord src := hw src (List.mem_of_find?_eq_some hfsrc)
      have hnh_wf : WFRecord { src with name := toName } :=
        ⟨hwto, hsrc_wf.2.1, hsrc_wf.2.2⟩
      have hall1 : ∀ r ∈ read file ++ [{ src with name := toName }], WFRecord r := by
        intro r hr
        rcases List.mem_append.mp hr with h2 | h2
        · exact hw r h2
        · rcases List.mem_singleton.mp h2 with rfl
          exact hnh_wf
      have hread1 : read (write (read file ++ [{ src with name := toName }])) =
          read file ++ [{ src with name := toName }] := read_write hall1
      constructor
      · -- editing the copy leaves the source untouched
        have hf_to : (read file ++ [{ src with name := toName }]).find?
            (fun h => h.name = toName) = some { src with name := toName } := by
          rw [List.find?_append, List.find?_eq_none.mpr
            (fun g hg => by simp [hnomatch_to g hg]), Option.none_or]
          exact List.find?_cons_of_pos _ (by simp)
        have hrepl : replaceFirst (read file ++ [{ src with name := toName }])
            toName (applyOptions { src with name := toName } o) =
            read file ++ [applyOptions { src with name := toName } o] :=
          replaceFirst_decomp hnomatch_to rfl
        have hedit : editHost toName o
            (write (read file ++ [{ src with name := toName }])) =
            (.success (applyOptions { src with name := toName } o),
              write (replaceFirst (read file ++ [{ src with name := toName }])
                toName (applyOptions { src with name := toName } o))) := by
          simp only [editHost]
          rw [hread1, hf_to]
        rw [hedit, hrepl]
        have hall2 : ∀ r ∈ read file ++
            [applyOptions { src with name := toName } o], WFRecord r := by
          intro r hr
          rcases List.mem_append.mp hr with h2 | h2
          · exact hw r h2
          · rcases List.mem_singleton.mp h2 with rfl
            exact applyOptions_wf hnh_wf ho
        simp only [getHost]
        rw [read_write hall2, List.find?_append, hfsrc]
        rfl
      · -- editing the source leaves the copy untouched
        have hf_from : (read file ++ [{ src with name := toName }]).find?
            (fun h => h.name = fromName) = some src := by
          rw [List.find?_append, hfsrc]
          rfl
        obtain ⟨l1, l2, hde, hl1, _⟩ := find?_some_decomp hfsrc
        have hl1n : ∀ g ∈ l1, g.name ≠ fromName := by
          intro g hg
          have := hl1 g hg
          simpa using this
        have hshape : read file ++ [{ src with name := toName }] =
            l1 ++ src :: (l2 ++ [{ src with name := toName }]) := by
          rw [hde, List.append_assoc]
          rfl
        have hrepl : replaceFirst (read file ++ [{ src with name := toName }])
            fromName (applyOptions src o) =
            l1 ++ applyOptions src o :: (l2 ++ [{ src with name := toName }]) := by
          rw [hshape]
          exact replaceFirst_decomp hl1n hfromname
        have hedit : editHost fromName o
            (write (read file ++ [{ src with name := toName }])) =
            (.success (applyOptions src o),
              write (replaceFirst (read file ++ [{ src with name := toName }])
                fromName (applyOptions src o))) := by
          simp only [editHost]
          rw [hread1, hf_from]
        rw [hedit, hrepl]
        have hmem_sub : ∀ g, g ∈ l1 ∨ g ∈ l2 → g ∈ read file := by
          intro g hg
          rw [hde]
          rcases hg with h2 | h2
          · exact List.mem_append_left _ h2
          · exact List.mem_append_right _ (List.mem_cons_of_mem src h2)
        have hall3 : ∀ r ∈ l1 ++ applyOptions src o ::
            (l2 ++ [{ src with name := toName }]), WFRecord r := by
          intro r hr
          rcases List.mem_append.mp hr with h2 | h2
          · exact hw r (hmem_sub r (Or.inl h2))
          · rcases List.mem_cons.mp h2 with rfl | h3
            · exact applyOptions_wf hsrc_wf ho
            · rcases List.mem_append.mp h3 with h4 | h4
              · exact hw r (hmem_sub r (Or.inr h4))
              · rcases List.mem_singleton.mp h4 with rfl
                exact hnh_wf
        simp only [getHost]
        rw [read_write hall3]
        have hresh : l1 ++ applyOptions src o ::
            (l2 ++ [{ src with name := toName }]) =
            (l1 ++ applyOptions src o :: l2) ++
              [{ src with name := toName }] := by
          rw [List.append_assoc]
          rfl
        rw [hresh, List.find?_append, List.find?_eq_none.mpr ?hnm,
          Option.none_or]
        case hnm =>
          intro g hg
          simp only [decide_eq_true_eq]
          rcases List.mem_append.mp hg with h2 | h2
          · exact hnomatch_to g (hmem_sub g (Or.inl h2))
          · rcases List.mem_cons.mp h2 with rfl | h3
            · rw [applyOptions_name]
              show ¬(src.name = toName)
              rw [hfromname]
              exact hne_ft
            · exact hnomatch_to g (hmem_sub g (Or.inr h3))
        exact List.find?_cons_of_pos _ (by simp)

/-- Witness for C6: after copying `a` (with one option) to `b` in a
one-record file, editing the copy `b` does not change what getHost
returns for `a`. -/
theorem c6_copy_deep_isolation_witness :
    getHost (strLit "a") (editHost (strLit "b")
        { port := some (strLit "9") }
        (write (read (some (strLit "Host a\n    User u\n")) ++
          [{ name := strLit "b", opts := [(strLit "User", strLit "u")] }]))).2 =
      getHost (strLit "a") (some (strLit "Host a\n    User u\n")) :=
  (((c6_copy_deep_isolation (strLit "a") (strLit "b")
      (some (strLit "Host a\n    User u\n"))).2.2
    { name := strLit "a", opts := [(strLit "User", strLit "u")] }
    (by decide) (by decide)).2.2
    (by decide) (by decide) { port := some (strLit "9") } (by decide)).1

end Sshconf
